import Mathlib

/-!
The icon decode pipeline of `gcemoji.c`.

A shallow embedding of `decompress`, `expand_gc`, `crop_upscale_icon` and the
offset arithmetic of `main`, with the properties of the specification stated
and proved over it.

Conventions of the embedding:

* a C buffer reached through a pointer is a map from index to cell value
  (`Buffer`); an index the C code may address is an index of that map;
* `uint32_t` results carry an explicit `% 2 ^ 32`, `uint16_t` ones `% 2 ^ 16`,
  `uint8_t` header fields `% 256`;
* loops over a fixed range are folds over `List.range`; the `while` loop of
  `decompress` takes fuel, and `decompress` supplies `in_len` units of it.
-/

namespace Gcemoji

/-! ## Constants (`gcemoji.c`, lines 9-19) -/

def BANK_LEN : Nat := 0x2000
def BANK_LOAD_ADDR : Nat := 0x6000
def IMAGE_BANK_SIZE : Nat := 256
def IMAGE_BANK_LEN : Nat := (IMAGE_BANK_SIZE * IMAGE_BANK_SIZE) / 4
def ICON_SIZE : Nat := 64
def ICON_LEN : Nat := ICON_SIZE * ICON_SIZE
def DISCORD_EMOJI_SIZE : Nat := 128
def DISCORD_EMOJI_LEN : Nat := DISCORD_EMOJI_SIZE * DISCORD_EMOJI_SIZE

/-- A buffer behind a C pointer: the value of the cell at each index. -/
abbrev Buffer := Nat → Nat

/-- The buffer whose first cells are the elements of `l` and the others zero. -/
def bufOf (l : List Nat) : Buffer := fun i => l.getD i 0

/-- The assignment `b[i] = v`. -/
def store (b : Buffer) (i v : Nat) : Buffer := fun j => if j = i then v else b j

/-! ## `decompress` (lines 97-130) -/

/-- The state of the loop of `decompress`: `ip` is `in` minus its initial value,
`out` the bytes stored through `out` so far in address order (every store goes
to the current `out`, which only moves forward, so the byte at offset `k` of the
output buffer is element `k`), `reads` the input indices read, latest first. -/
structure DecState where
  ip : Nat
  out : List Nat
  reads : List Nat

/-- One iteration of the body of `while (in < in_end)`. -/
def decompressStep (inp : Buffer) (s : DecState) : DecState :=
  if inp s.ip = 0xc0 then
    -- copy = (in[2] << 8) | in[1]; memset(out, in[3], copy); in += 4; out += copy
    let copy := ((inp (s.ip + 2) <<< 8) ||| inp (s.ip + 1)) % 2 ^ 16
    { ip := s.ip + 4
      out := s.out ++ List.replicate copy (inp (s.ip + 3))
      reads := (s.ip + 3) :: (s.ip + 1) :: (s.ip + 2) :: s.ip :: s.reads }
  else if inp s.ip > 0xc0 then
    -- copy = *in & 0x3f; memset(out, in[1], copy); in += 2; out += copy
    let copy := (inp s.ip &&& 0x3f) % 2 ^ 16
    { ip := s.ip + 2
      out := s.out ++ List.replicate copy (inp (s.ip + 1))
      reads := (s.ip + 1) :: s.ip :: s.ip :: s.ip :: s.reads }
  else
    -- *out++ = *in++; copy stays 0
    { ip := s.ip + 1
      out := s.out ++ [inp s.ip]
      reads := s.ip :: s.ip :: s.ip :: s.reads }

/-- The loop `while (in < in_end)`, run for at most `fuel` iterations; `none`
when the fuel is used up before the loop condition fails. -/
def decompressLoop (inp : Buffer) (in_len : Nat) : Nat → DecState → Option DecState
  | 0, s => if s.ip < in_len then none else some s
  | fuel + 1, s =>
    if s.ip < in_len then decompressLoop inp in_len fuel (decompressStep inp s)
    else some s

/-- The call `decompress(in, out, in_len)`: the final loop state. Every
iteration moves `in` forward, so `in_len` iterations are enough. -/
def decompress (inp : Buffer) (in_len : Nat) : Option DecState :=
  decompressLoop inp in_len in_len { ip := 0, out := [], reads := [] }

/-- The value of `return out - out_start;`, a `uint32_t`. -/
def DecState.ret (s : DecState) : Nat := s.out.length % 2 ^ 32

/-! ### Units of the compressed stream, as the specification describes them -/

/-- A complete unit of the stream: a literal byte, an 8-bit run (lead byte and
fill value) or a 16-bit run (count low byte, count high byte, fill value). -/
inductive RleUnit where
  | lit (b : Nat)
  | run8 (b v : Nat)
  | run16 (lo hi v : Nat)

/-- A literal is below `0xC0`, the lead byte of an 8-bit run lies in
`0xC1..0xFF`, the two count bytes of a 16-bit run are bytes. -/
def RleUnit.wf : RleUnit → Prop
  | .lit b => b < 0xC0
  | .run8 b _ => 0xC1 ≤ b ∧ b ≤ 0xFF
  | .run16 lo hi _ => lo < 256 ∧ hi < 256

instance : DecidablePred RleUnit.wf := fun u => by
  cases u <;> unfold RleUnit.wf <;> infer_instance

/-- The input bytes of a unit. -/
def RleUnit.encode : RleUnit → List Nat
  | .lit b => [b]
  | .run8 b v => [b, v]
  | .run16 lo hi v => [0xC0, lo, hi, v]

/-- The length of the segment a unit stands for. -/
def RleUnit.segLen : RleUnit → Nat
  | .lit _ => 1
  | .run8 b _ => b &&& 0x3F
  | .run16 lo hi _ => lo + 256 * hi

/-- The expansion of a unit. -/
def RleUnit.expand : RleUnit → List Nat
  | .lit b => [b]
  | .run8 b v => List.replicate (b &&& 0x3F) v
  | .run16 lo hi v => List.replicate (lo + 256 * hi) v

/-- The input stream made of the units `us`. -/
def encodeUnits (us : List RleUnit) : List Nat := us.flatMap RleUnit.encode

/-- The concatenation of the expansions of `us`. -/
def expandUnits (us : List RleUnit) : List Nat := us.flatMap RleUnit.expand

/-- The sum of the segment lengths of `us`. -/
def segLenSum (us : List RleUnit) : Nat := (us.map RleUnit.segLen).sum


/-- The stream of the specification's test: four literals, an 8-bit run of count
10 and a 16-bit run of count 300. -/
def sampleUnits : List RleUnit :=
  [.lit 0x01, .lit 0x02, .lit 0x7F, .lit 0xBF, .run8 0xCA 0x55, .run16 0x2C 0x01 0xAA]

/-- The stream of 65538 sixteen-bit runs of count 65535. -/
def bigRuns : List RleUnit := List.replicate 65538 (RleUnit.run16 0xFF 0xFF 0)

/-! ## `expand_gc` (lines 37-63) -/

def gc_palette : List Nat := [0xFFFFFFFF, 0xFFC0C0C0, 0xFF808080, 0xFF000000]

/-- The lookup `gc_palette[k]`; the code only forms indices `& 3`. -/
def palette (k : Nat) : Nat := gc_palette.getD k 0

/-- The four pixels input byte `b` unpacks to, in the order they are stored. -/
def unpackedPixel (b k : Nat) : Nat := palette ((b >>> (6 - 2 * k)) &&& 3)

/-- The state of the first loop: the block `start` points to and `buf - start`. -/
structure UnpackState where
  mem : Buffer
  pos : Nat

/-- The statement `*buf++ = v`. -/
def UnpackState.push (s : UnpackState) (v : Nat) : UnpackState :=
  { mem := store s.mem s.pos v, pos := s.pos + 1 }

/-- The body of the first loop for input byte `i` (lines 51-54). -/
def unpackStep (inp : Buffer) (s : UnpackState) (i : Nat) : UnpackState :=
  (((s.push (palette ((inp i >>> 6) &&& 3))).push
        (palette ((inp i >>> 4) &&& 3))).push
      (palette ((inp i >>> 2) &&& 3))).push
    (palette ((inp i >>> 0) &&& 3))

/-- The first loop, `for (i = 0; i < (w * h) / 4; i++)`, on the block `heap`
that `malloc` returned; `w * h` is a `uint32_t` product. -/
def unpack (inp heap : Buffer) (w h : Nat) : UnpackState :=
  (List.range ((w * h % 2 ^ 32) / 4)).foldl (unpackStep inp) { mem := heap, pos := 0 }

/-- The body of the second loop (line 60), `uint32_t` index arithmetic; `x < w`
at every use, so `w - x - 1` does not wrap. -/
def rotateStep (start : Buffer) (w h y : Nat) (out : Buffer) (x : Nat) : Buffer :=
  store out ((y * w + (w - x - 1)) % 2 ^ 32) (start ((y + (w - x - 1) * h) % 2 ^ 32))

/-- The inner loop `for (x = 0; x < w; x++)` of the second loop. -/
def rotateRow (start : Buffer) (w h : Nat) (out : Buffer) (y : Nat) : Buffer :=
  (List.range w).foldl (rotateStep start w h y) out

/-- The second loop (lines 58-60), reading the unpacked block `start`. -/
def rotate (start out : Buffer) (w h : Nat) : Buffer :=
  (List.range h).foldl (rotateRow start w h) out

/-- The call `expand_gc(in, out, w, h)`: the contents of `out` afterwards.
`heap` is the indeterminate initial contents of the block `malloc` returns
(assumed to succeed). -/
def expand_gc (inp out heap : Buffer) (w h : Nat) : Buffer :=
  rotate (unpack inp heap w h).mem out w h

/-! ## `crop_upscale_icon` (lines 67-95) -/

/-- The destination of `crop_upscale_icon`: the buffer, `out` minus its initial
value, and the indices stored to, latest first. -/
structure Dest where
  mem : Buffer
  pos : Nat
  stores : List Nat

/-- The index `where` of line 76. For the `uint8_t` arguments of the code its
value is at most 81726, so the conversion to `uint32_t` changes nothing. -/
def cropWhere (in_bank bank_x bank_y y x : Nat) : Nat :=
  if in_bank ≠ 0 then ((bank_y + y) * IMAGE_BANK_SIZE) + bank_x + x else (y * ICON_SIZE) + x

/-- The body of the inner loop (lines 76-86). -/
def cropPixel (inp : Buffer) (upscale in_bank bank_x bank_y y : Nat) (d : Dest) (x : Nat) :
    Dest :=
  if upscale ≠ 0 then
    -- out[0] = out[1] = in[where]; out += 2
    { mem := store (store d.mem (d.pos + 1) (inp (cropWhere in_bank bank_x bank_y y x)))
        d.pos (inp (cropWhere in_bank bank_x bank_y y x))
      pos := d.pos + 2
      stores := d.pos :: (d.pos + 1) :: d.stores }
  else
    -- *out++ = in[where]
    { mem := store d.mem d.pos (inp (cropWhere in_bank bank_x bank_y y x))
      pos := d.pos + 1
      stores := d.pos :: d.stores }

/-- Lines 91-92: `memcpy(out, out - DISCORD_EMOJI_SIZE, DISCORD_EMOJI_SIZE *
sizeof(uint32_t)); out += DISCORD_EMOJI_SIZE`. The two regions do not overlap. -/
def memcpyRow (d : Dest) : Dest :=
  { mem := fun j =>
      if d.pos ≤ j ∧ j < d.pos + DISCORD_EMOJI_SIZE then d.mem (j - DISCORD_EMOJI_SIZE)
      else d.mem j
    pos := d.pos + DISCORD_EMOJI_SIZE
    stores := ((List.range DISCORD_EMOJI_SIZE).map (fun k => d.pos + k)).reverse ++ d.stores }

/-- The body of the outer loop for source row `y` (lines 74-93). -/
def cropRow (inp : Buffer) (upscale in_bank bank_x bank_y : Nat) (d : Dest) (y : Nat) : Dest :=
  if upscale ≠ 0 then
    memcpyRow ((List.range ICON_SIZE).foldl (cropPixel inp upscale in_bank bank_x bank_y y) d)
  else
    (List.range ICON_SIZE).foldl (cropPixel inp upscale in_bank bank_x bank_y y) d

/-- The call `crop_upscale_icon(in, out, upscale, in_bank, bank_x, bank_y)`. -/
def crop_upscale_icon (inp out : Buffer) (upscale in_bank bank_x bank_y : Nat) : Dest :=
  (List.range ICON_SIZE).foldl (cropRow inp upscale in_bank bank_x bank_y)
    { mem := out, pos := 0, stores := [] }

/-! ## `main` (lines 132-240) -/

/-- The ROM file: its length and its bytes. -/
structure Rom where
  len : Nat
  byte : Nat → Nat

/-- The effect of `fread(buf, 1, n, rom)` at file position `pos` on `buf`: the
bytes the file has there are stored, the cells past the end of the file keep
their contents. -/
def fread (rom : Rom) (pos n : Nat) (buf : Buffer) : Buffer :=
  fun i => if i < n ∧ pos + i < rom.len then rom.byte (pos + i) % 256 else buf i

/-- The value of `sizeof(rom_header_t)`. -/
def HEADER_LEN : Nat := 32

/-! The `uint8_t` fields of `rom_header_t` that `main` uses, by their offsets in
the 32 bytes of the structure. -/

def hdr_size (hdr : Buffer) : Nat := hdr 0 % 256
def hdr_entry_bank (hdr : Buffer) : Nat := hdr 1 % 256
def hdr_flags (hdr : Buffer) : Nat := hdr 4 % 256
def hdr_icon_bank (hdr : Buffer) : Nat := hdr 14 % 256
def hdr_icon_x (hdr : Buffer) : Nat := hdr 15 % 256
def hdr_icon_y (hdr : Buffer) : Nat := hdr 16 % 256

/-- The header in effect and the value of `offset` after lines 154-165. -/
structure Located where
  hdr : Buffer
  offset : Nat

/-- Whether line 159 takes the ROM for a bad dump. -/
def bad_dump (hdr : Buffer) : Bool := hdr_size hdr = 0 || hdr_size hdr = 0xff

/-- Lines 154-165; `hdr0` is the indeterminate initial contents of `hdr`. -/
def read_header (rom : Rom) (hdr0 : Buffer) : Located :=
  if bad_dump (fread rom 0 HEADER_LEN hdr0) then
    { hdr := fread rom 0x40000 HEADER_LEN (fread rom 0 HEADER_LEN hdr0)
      offset := (0 + 0x40000) % 2 ^ 32 }
  else
    { hdr := fread rom 0 HEADER_LEN hdr0, offset := 0 }

/-- The icon flag test of line 176. -/
def icon_flag (hdr : Buffer) : Nat := (hdr_flags hdr >>> 1) &&& 1

/-- The compressed flag test of line 184. -/
def compressed_flag (hdr : Buffer) : Nat := (hdr_flags hdr >>> 3) &&& 1

/-- Line 192: an `int` expression assigned to the `uint32_t offset`. -/
def compressed_offset (hdr : Buffer) : Nat :=
  ((((hdr_icon_bank hdr : Int) - 0x20) * (BANK_LEN : Int)
      + ((((hdr_icon_x hdr <<< 8) ||| hdr_icon_y hdr : Nat) : Int) - (BANK_LOAD_ADDR : Int)))
    % 2 ^ 32).toNat

/-- Line 207: an `int` expression added to the `uint32_t offset`. -/
def bank_offset (offset : Nat) (hdr : Buffer) : Nat :=
  (((offset : Int)
      + ((hdr_icon_bank hdr : Int) - ((hdr_entry_bank hdr / 2 : Nat) : Int))
        * (IMAGE_BANK_LEN : Int))
    % 2 ^ 32).toNat

/-- A buffer of static storage duration before its first use. -/
def zeroBuf : Buffer := fun _ => 0

/-- The contents of `icon_buf` after lines 193-194. -/
def icon_buf (rom : Rom) (hdr : Buffer) : Buffer :=
  fread rom (compressed_offset hdr) ICON_LEN zeroBuf

/-- The contents of `icon_dec` after line 197. Bytes `decompress` stores past
`icon_dec[ICON_LEN - 1]` fall outside the array; their effect on other objects
is not followed. -/
def icon_dec (rom : Rom) (hdr : Buffer) : Buffer :=
  match decompress (icon_buf rom hdr) ICON_LEN with
  | some s => fun i => if i < s.out.length then s.out.getD i 0 else zeroBuf i
  | none => zeroBuf

/-- The contents of `bank_buf` after lines 209-210. -/
def bank_buf (rom : Rom) (offset : Nat) (hdr : Buffer) : Buffer :=
  fread rom (bank_offset offset hdr) IMAGE_BANK_LEN zeroBuf

/-- The calls of `main` that the properties speak of, with their scalar
arguments. -/
inductive Call where
  | fseek (offset : Nat)
  | fread (n : Nat)
  | decompress (in_len : Nat)
  | expand_gc (w h : Nat)
  | crop_upscale_icon (upscale in_bank bank_x bank_y : Nat)
  | stbi_write_png (w h : Nat)
  deriving DecidableEq

/-- Whether a call is one of the three decode stages. -/
def Call.isDecode : Call → Bool
  | .decompress _ => true
  | .expand_gc _ _ => true
  | .crop_upscale_icon _ _ _ _ => true
  | _ => false

/-- How `main` ends. -/
inductive Outcome where
  | usage
  | open_error
  | no_icon
  | png_error
  | done
  deriving DecidableEq

/-- The value `main` returns. -/
def Outcome.exit_status : Outcome → Nat
  | .usage => 0
  | .open_error => 1
  | .no_icon => 1
  | .png_error => 1
  | .done => 0

/-- The image handed to `stbi_write_png`. -/
structure Image where
  width : Nat
  height : Nat
  pixels : Buffer

/-- What one run of `main` does: the calls made in order, how it ends, and the
image handed to the PNG writer if the run gets there. -/
structure Run where
  calls : List Call
  outcome : Outcome
  image : Option Image

/-- What `main` receives from its environment. -/
structure Env where
  /-- The argument count. -/
  argc : Nat
  /-- The file `fopen(argv[1], "rb")` opens, if it opens one. -/
  rom : Option Rom
  /-- Whether `argv[3]` starts with `-u`. -/
  uflag : Bool
  /-- The indeterminate initial contents of the local `hdr`. -/
  hdr0 : Buffer
  /-- The indeterminate contents of the block `malloc` returns. -/
  heap : Buffer
  /-- Whether `stbi_write_png` returns non-zero. -/
  png_ok : Bool

/-- Line 173. -/
def Env.upscale (e : Env) : Nat := if 4 ≤ e.argc ∧ e.uflag = true then 1 else 0

/-- The file calls of lines 154-165. -/
def header_calls (rom : Rom) (hdr0 : Buffer) : List Call :=
  if bad_dump (fread rom 0 HEADER_LEN hdr0) then
    [.fread HEADER_LEN, .fseek 0x40000, .fread HEADER_LEN]
  else [.fread HEADER_LEN]

/-- Lines 186-199: the compressed branch; the calls and the contents of `icon`. -/
def compressed_branch (rom : Rom) (hdr heap : Buffer) (upscale : Nat) : List Call × Buffer :=
  ([.fseek (compressed_offset hdr), .fread ICON_LEN, .decompress ICON_LEN,
      .expand_gc ICON_SIZE ICON_SIZE, .crop_upscale_icon upscale 0 0 0],
    (crop_upscale_icon (expand_gc (icon_dec rom hdr) zeroBuf heap ICON_SIZE ICON_SIZE)
      zeroBuf upscale 0 0 0).mem)

/-- Lines 203-214: the bank branch; the calls and the contents of `icon`. -/
def bank_branch (rom : Rom) (loc : Located) (heap : Buffer) (upscale : Nat) :
    List Call × Buffer :=
  ([.fseek (bank_offset loc.offset loc.hdr), .fread IMAGE_BANK_LEN,
      .expand_gc IMAGE_BANK_SIZE IMAGE_BANK_SIZE,
      .crop_upscale_icon upscale 1 (hdr_icon_x loc.hdr) (hdr_icon_y loc.hdr)],
    (crop_upscale_icon
      (expand_gc (bank_buf rom loc.offset loc.hdr) zeroBuf heap IMAGE_BANK_SIZE IMAGE_BANK_SIZE)
      zeroBuf upscale 1 (hdr_icon_x loc.hdr) (hdr_icon_y loc.hdr)).mem)

/-- Lines 219-239: the PNG is written with the size the upscale flag selects. -/
def write_png (calls : List Call) (icon : Buffer) (upscale : Nat) (png_ok : Bool) : Run :=
  if upscale ≠ 0 then
    { calls := calls ++ [.stbi_write_png DISCORD_EMOJI_SIZE DISCORD_EMOJI_SIZE]
      outcome := if png_ok then .done else .png_error
      image := some ⟨DISCORD_EMOJI_SIZE, DISCORD_EMOJI_SIZE, icon⟩ }
  else
    { calls := calls ++ [.stbi_write_png ICON_SIZE ICON_SIZE]
      outcome := if png_ok then .done else .png_error
      image := some ⟨ICON_SIZE, ICON_SIZE, icon⟩ }

/-- The program. The output file name (lines 167-171) plays no part in the
decode and is left out. -/
def main (e : Env) : Run :=
  if e.argc < 2 then { calls := [], outcome := .usage, image := none }
  else
    match e.rom with
    | none => { calls := [], outcome := .open_error, image := none }
    | some rom =>
      if icon_flag (read_header rom e.hdr0).hdr = 0 then
        { calls := header_calls rom e.hdr0, outcome := .no_icon, image := none }
      else if compressed_flag (read_header rom e.hdr0).hdr ≠ 0 then
        write_png
          (header_calls rom e.hdr0
            ++ (compressed_branch rom (read_header rom e.hdr0).hdr e.heap e.upscale).1)
          (compressed_branch rom (read_header rom e.hdr0).hdr e.heap e.upscale).2
          e.upscale e.png_ok
      else
        write_png
          (header_calls rom e.hdr0 ++ (bank_branch rom (read_header rom e.hdr0) e.heap e.upscale).1)
          (bank_branch rom (read_header rom e.hdr0) e.heap e.upscale).2
          e.upscale e.png_ok

/-! ## Sample runs -/

/-- A bad dump of 0x40020 bytes: byte 0 is 0x00, and the header at 0x40000 has
size 0x20, flags 0x0A (icon present, compressed), icon bank 0x21, icon x 0x60,
icon y 0x10. -/
def badDumpRom : Rom :=
  { len := 0x40020
    byte := fun i =>
      if i = 0x40000 then 0x20 else if i = 0x40004 then 0x0A else if i = 0x4000E then 0x21
      else if i = 0x4000F then 0x60 else if i = 0x40010 then 0x10 else 0 }

/-- The run `gcemoji rom.bin` on `badDumpRom`. -/
def badDumpEnv : Env :=
  { argc := 2, rom := some badDumpRom, uflag := false, hdr0 := zeroBuf, heap := zeroBuf,
    png_ok := true }

/-- A ROM of 0x8000 bytes whose header at 0 has size 0x20, entry bank 0, flags
0x02 (icon present, not compressed), icon bank 1, icon x 0, icon y 0. -/
def bankRom : Rom :=
  { len := 0x8000
    byte := fun i => if i = 0 then 0x20 else if i = 4 then 0x02 else if i = 14 then 1 else 0 }

/-- The run `gcemoji rom.bin` on `bankRom`. -/
def bankEnv : Env :=
  { argc := 2, rom := some bankRom, uflag := false, hdr0 := zeroBuf, heap := zeroBuf,
    png_ok := true }

/-- A ROM of 0x8000 bytes whose header at 0 has size 0x20, flags 0x0A (icon
present, compressed), icon bank 0x21, icon x 0x60, icon y 0x10. -/
def compressedRom : Rom :=
  { len := 0x8000
    byte := fun i =>
      if i = 0 then 0x20 else if i = 4 then 0x0A else if i = 14 then 0x21
      else if i = 15 then 0x60 else if i = 16 then 0x10 else 0 }

/-- The run `gcemoji rom.bin` on `compressedRom`. -/
def compressedEnv : Env :=
  { argc := 2, rom := some compressedRom, uflag := false, hdr0 := zeroBuf, heap := zeroBuf,
    png_ok := true }


/-! ## Further instances and index maps -/

/-- The 4096-byte stream of 1024 sixteen-bit runs of count 65535. -/
def overrunRuns : List RleUnit := List.replicate 1024 (RleUnit.run16 0xFF 0xFF 0)

/-- The state in which `decompress` enters its loop. -/
def decStart : DecState := { ip := 0, out := [], reads := [] }

/-- The output index line 60 stores to in iteration `(y, x)` of the second loop
of `expand_gc`. -/
def rotateWriteIdx (w y x : Nat) : Nat := (y * w + (w - x - 1)) % 2 ^ 32

/-- The index of the unpacked block line 60 reads in iteration `(y, x)`. -/
def rotateReadIdx (w h y x : Nat) : Nat := (y + (w - x - 1) * h) % 2 ^ 32

/-- A ROM of 0x8000 bytes whose header at 0 has size 0x20 and flags 0x08 (no
icon; the compressed bit is set). -/
def noIconRom : Rom :=
  { len := 0x8000, byte := fun i => if i = 0 then 0x20 else if i = 4 then 0x08 else 0 }

/-- The run `gcemoji rom.bin` on `noIconRom`. -/
def noIconEnv : Env :=
  { argc := 2, rom := some noIconRom, uflag := false, hdr0 := zeroBuf, heap := zeroBuf,
    png_ok := true }

/-- The run `gcemoji rom.bin` when `rom.bin` cannot be opened. -/
def openFailEnv : Env :=
  { argc := 2, rom := none, uflag := false, hdr0 := zeroBuf, heap := zeroBuf, png_ok := true }

/-- The run `gcemoji rom.bin` on `bankRom` when the PNG cannot be written. -/
def pngFailEnv : Env :=
  { argc := 2, rom := some bankRom, uflag := false, hdr0 := zeroBuf, heap := zeroBuf,
    png_ok := false }

/-- The text with which `main` reports how it ends: the format string of the
usage line (line 143, to stdout), the prefix handed to `perror` (line 149), the
strings of the two `fputs` to stderr (lines 178, 224 and 232) and of the final
`puts` (line 237). -/
def Outcome.message : Outcome → String
  | .usage => "Usage: %s rom.bin [icon.png] [-u]\n"
  | .open_error => "Error opening ROM"
  | .no_icon => "Error: Game has no icon\n"
  | .png_error => "Error writing PNG\n"
  | .done => "Done!"

/-- Whether that text goes to stderr (`perror`, `fputs(..., stderr)`) rather than
to stdout (`printf`, `puts`). -/
def Outcome.on_stderr : Outcome → Bool
  | .usage => false
  | .open_error => true
  | .no_icon => true
  | .png_error => true
  | .done => false

/-! ## Theorems -/

/-! ### Loops over a range -/

/-- Induction over the iterations of `for (i = 0; i < n; i++)`. -/
theorem foldl_range_invariant {σ : Type} (f : σ → Nat → σ) (P : Nat → σ → Prop) (n : Nat)
    (init : σ) (h0 : P 0 init) (hstep : ∀ i s, i < n → P i s → P (i + 1) (f s i)) :
    P n ((List.range n).foldl f init) := by
  induction n with
  | zero => simpa using h0
  | succ k ih =>
    rw [List.range_succ, List.foldl_append]
    exact hstep k _ (Nat.lt_succ_self k)
      (ih (fun i s hi hp => hstep i s (Nat.lt_succ_of_lt hi) hp))

theorem store_same (b : Buffer) (i v : Nat) : store b i v i = v := by
  simp [store]

theorem store_other (b : Buffer) (i v j : Nat) (h : j ≠ i) : store b i v j = b j := by
  simp [store, h]

/-! ### `decompress` -/

theorem bufOf_append_right (pre l : List Nat) (k : Nat) :
    bufOf (pre ++ l) (pre.length + k) = l.getD k 0 := by
  unfold bufOf
  rw [List.getD_append_right _ _ _ _ (Nat.le_add_right _ _)]
  simp

theorem bufOf_append_zero (pre l : List Nat) :
    bufOf (pre ++ l) pre.length = l.getD 0 0 := by
  simpa using bufOf_append_right pre l 0

theorem lor_bytes (lo hi : Nat) (hlo : lo < 256) : (hi <<< 8) ||| lo = lo + 256 * hi := by
  have h := Nat.mul_add_lt_is_or (i := 8) (b := lo) (by simpa using hlo) hi
  rw [Nat.shiftLeft_eq, Nat.mul_comm hi, ← h]; omega

theorem expand_length (u : RleUnit) : u.expand.length = u.segLen := by
  cases u <;> simp [RleUnit.expand, RleUnit.segLen]

theorem expandUnits_length (us : List RleUnit) : (expandUnits us).length = segLenSum us := by
  induction us with
  | nil => rfl
  | cons u us ih =>
    simp only [expandUnits, segLenSum, List.flatMap_cons, List.length_append, List.map_cons,
      List.sum_cons] at *
    rw [ih, expand_length]

theorem encode_pos (u : RleUnit) : 0 < u.encode.length := by
  cases u <;> simp [RleUnit.encode]

/-- One iteration on a well-formed unit consumes it and appends its expansion. -/
theorem decompressStep_unit (pre rest out reads : List Nat) (u : RleUnit) (hu : u.wf) :
    (decompressStep (bufOf (pre ++ (u.encode ++ rest))) ⟨pre.length, out, reads⟩).ip
        = pre.length + u.encode.length ∧
    (decompressStep (bufOf (pre ++ (u.encode ++ rest))) ⟨pre.length, out, reads⟩).out
        = out ++ u.expand := by
  cases u with
  | lit b =>
    have hb : b < 0xC0 := hu
    have h0 : bufOf (pre ++ ([b] ++ rest)) pre.length = b := by
      rw [bufOf_append_zero]; rfl
    simp only [decompressStep, RleUnit.encode, RleUnit.expand, h0]
    have h1 : ¬ b = 0xc0 := by omega
    have h2 : ¬ b > 0xc0 := by omega
    simp [h1, h2]
  | run8 b v =>
    have hb : 0xC1 ≤ b ∧ b ≤ 0xFF := hu
    have h0 : bufOf (pre ++ ([b, v] ++ rest)) pre.length = b := by
      rw [bufOf_append_zero]; rfl
    have h1' : bufOf (pre ++ ([b, v] ++ rest)) (pre.length + 1) = v := by
      rw [bufOf_append_right]; rfl
    have h1 : ¬ b = 0xc0 := by omega
    have h2 : b > 0xc0 := by omega
    have h3 : (b &&& 0x3f) % 2 ^ 16 = b &&& 0x3F := by
      apply Nat.mod_eq_of_lt
      have : b &&& 0x3f ≤ 0x3f := Nat.and_le_right
      omega
    simp only [decompressStep, RleUnit.encode, RleUnit.expand, h0, h1', h1, h2, h3]
    simp
  | run16 lo hi v =>
    have hb : lo < 256 ∧ hi < 256 := hu
    have h0 : bufOf (pre ++ ([0xC0, lo, hi, v] ++ rest)) pre.length = 0xC0 := by
      rw [bufOf_append_zero]; rfl
    have h1 : bufOf (pre ++ ([0xC0, lo, hi, v] ++ rest)) (pre.length + 1) = lo := by
      rw [bufOf_append_right]; rfl
    have h2 : bufOf (pre ++ ([0xC0, lo, hi, v] ++ rest)) (pre.length + 2) = hi := by
      rw [bufOf_append_right]; rfl
    have h3 : bufOf (pre ++ ([0xC0, lo, hi, v] ++ rest)) (pre.length + 3) = v := by
      rw [bufOf_append_right]; rfl
    have h4 : ((hi <<< 8) ||| lo) % 2 ^ 16 = lo + 256 * hi := by
      rw [lor_bytes lo hi hb.1]; omega
    simp only [decompressStep, RleUnit.encode, RleUnit.expand, h0, h1, h2, h3, h4]
    simp


/-- The loop, started at the front of a stream of well-formed units with fuel for
every remaining input byte, stops at the end of the stream having appended the
expansions of the units. -/
theorem decompressLoop_units (us : List RleUnit) (hwf : ∀ u ∈ us, u.wf) :
    ∀ (pre out reads : List Nat) (fuel : Nat), (encodeUnits us).length ≤ fuel →
      ∃ s, decompressLoop (bufOf (pre ++ encodeUnits us))
            (pre.length + (encodeUnits us).length) fuel ⟨pre.length, out, reads⟩ = some s ∧
        s.out = out ++ expandUnits us ∧ s.ip = pre.length + (encodeUnits us).length := by
  induction us with
  | nil =>
    intro pre out reads fuel _
    refine ⟨⟨pre.length, out, reads⟩, ?_, by simp [expandUnits], by simp [encodeUnits]⟩
    cases fuel <;> simp [decompressLoop, encodeUnits]
  | cons u us ih =>
    intro pre out reads fuel hfuel
    have hu : u.wf := hwf u (List.mem_cons_self _ _)
    have hus : ∀ v ∈ us, v.wf := fun v hv => hwf v (List.mem_cons_of_mem _ hv)
    have henc : encodeUnits (u :: us) = u.encode ++ encodeUnits us := by
      simp [encodeUnits]
    have hexp : expandUnits (u :: us) = u.expand ++ expandUnits us := by
      simp [expandUnits]
    have hpos := encode_pos u
    rw [henc] at hfuel ⊢
    rw [List.length_append] at hfuel ⊢
    obtain ⟨f, rfl⟩ : ∃ f, fuel = f + 1 := ⟨fuel - 1, by omega⟩
    obtain ⟨hip, hout⟩ := decompressStep_unit pre (encodeUnits us) out reads u hu
    have hlt : pre.length < pre.length + (u.encode.length + (encodeUnits us).length) := by
      omega
    rw [decompressLoop, if_pos hlt]
    generalize hst : decompressStep (bufOf (pre ++ (u.encode ++ encodeUnits us)))
      ⟨pre.length, out, reads⟩ = st at hip hout
    obtain ⟨ip', out', reads'⟩ := st
    simp only at hip hout
    subst hip hout
    have := ih hus (pre ++ u.encode) (out ++ u.expand) reads' f (by omega)
    rw [List.append_assoc, List.length_append, Nat.add_assoc] at this
    obtain ⟨s, hs, hso, hsi⟩ := this
    exact ⟨s, hs, by rw [hso, hexp, List.append_assoc], hsi⟩

/-- On a stream of well-formed units `decompress` returns, having written the
concatenation of the expansions. -/
theorem decompress_units (us : List RleUnit) (hwf : ∀ u ∈ us, u.wf) :
    ∃ s, decompress (bufOf (encodeUnits us)) (encodeUnits us).length = some s ∧
      s.out = expandUnits us ∧ s.ip = (encodeUnits us).length := by
  have h := decompressLoop_units us hwf [] [] [] (encodeUnits us).length (Nat.le_refl _)
  simpa [decompress] using h

theorem segLenSum_replicate (n : Nat) (u : RleUnit) :
    segLenSum (List.replicate n u) = n * u.segLen := by
  simp [segLenSum]

theorem encodeUnits_replicate_length (n : Nat) (u : RleUnit) :
    (encodeUnits (List.replicate n u)).length = n * u.encode.length := by
  simp [encodeUnits, List.length_flatMap]

theorem decompressStep_ip_lt (inp : Buffer) (s : DecState) :
    s.ip < (decompressStep inp s).ip := by
  unfold decompressStep
  split
  · simp
  · split <;> simp

/-- The loop of `decompress` ends when it has fuel for every remaining input
byte. -/
theorem decompressLoop_returns (inp : Buffer) (in_len : Nat) :
    ∀ (fuel : Nat) (s : DecState), in_len ≤ s.ip + fuel →
      ∃ t, decompressLoop inp in_len fuel s = some t := by
  intro fuel
  induction fuel with
  | zero =>
    intro s hs
    exact ⟨s, by simp only [decompressLoop]; rw [if_neg (by omega)]⟩
  | succ f ih =>
    intro s hs
    by_cases hlt : s.ip < in_len
    · have hstep := decompressStep_ip_lt inp s
      obtain ⟨t, ht⟩ := ih (decompressStep inp s) (by omega)
      exact ⟨t, by simp only [decompressLoop]; rw [if_pos hlt, ht]⟩
    · exact ⟨s, by simp only [decompressLoop]; rw [if_neg hlt]⟩

theorem decompress_returns (inp : Buffer) (in_len : Nat) :
    ∃ t, decompress inp in_len = some t :=
  decompressLoop_returns inp in_len in_len _ (by simp)

/-- C1 (amended): on every stream of complete units, `decompress` returns, the
bytes written are the concatenation of the expansions, their number is the sum of
the segment lengths, and the value returned is that sum reduced modulo 2^32,
hence the sum itself when it is below 2^32. -/
theorem decompress_units_expansion (us : List RleUnit) (hwf : ∀ u ∈ us, u.wf) :
    ∃ s, decompress (bufOf (encodeUnits us)) (encodeUnits us).length = some s ∧
      s.out = expandUnits us ∧ s.out.length = segLenSum us ∧
      s.ret = segLenSum us % 2 ^ 32 ∧ (segLenSum us < 2 ^ 32 → s.ret = segLenSum us) := by
  obtain ⟨s, hs, hout, _⟩ := decompress_units us hwf
  have hlen : s.out.length = segLenSum us := by rw [hout, expandUnits_length]
  refine ⟨s, hs, hout, hlen, ?_, ?_⟩
  · rw [DecState.ret, hlen]
  · intro h
    rw [DecState.ret, hlen, Nat.mod_eq_of_lt h]

/-- C1 at the stream of the specification's test: four literals, an 8-bit run
of count 10 and a 16-bit run of count 300. -/
theorem decompress_units_expansion_witness :
    (∀ u ∈ sampleUnits, u.wf) ∧
    ∃ s, decompress (bufOf (encodeUnits sampleUnits)) (encodeUnits sampleUnits).length = some s ∧
      s.out = expandUnits sampleUnits ∧ s.out.length = segLenSum sampleUnits ∧
      s.ret = segLenSum sampleUnits % 2 ^ 32 ∧
      (segLenSum sampleUnits < 2 ^ 32 → s.ret = segLenSum sampleUnits) :=
  ⟨by decide, decompress_units_expansion sampleUnits (by decide)⟩

/-- C1 as stated fails: on the 262152-byte stream of 65538 sixteen-bit runs of
count 65535 the segment lengths sum to 4295032830, and the value returned is
65534. -/
theorem decompress_ret_wraps :
    (∀ u ∈ bigRuns, u.wf) ∧ (encodeUnits bigRuns).length = 262152 ∧
    segLenSum bigRuns = 4295032830 ∧
    ∃ s, decompress (bufOf (encodeUnits bigRuns)) (encodeUnits bigRuns).length = some s ∧
      s.ret = 65534 ∧ s.ret ≠ segLenSum bigRuns := by
  have hwf : ∀ u ∈ bigRuns, u.wf := by
    intro u hu
    rw [bigRuns, List.mem_replicate] at hu
    rw [hu.2]
    exact ⟨by decide, by decide⟩
  have hsum : segLenSum bigRuns = 4295032830 := by
    rw [bigRuns, segLenSum_replicate]; rfl
  have hlen : (encodeUnits bigRuns).length = 262152 := by
    rw [bigRuns, encodeUnits_replicate_length]; rfl
  obtain ⟨s, hs, hout, _⟩ := decompress_units bigRuns hwf
  have hret : s.ret = 65534 := by
    rw [DecState.ret, hout, expandUnits_length, hsum]; rfl
  exact ⟨hwf, hlen, hsum, s, hs, hret, by rw [hret, hsum]; decide⟩


/-! ### `expand_gc`: the unpack loop -/

theorem unpackStep_pos (inp : Buffer) (s : UnpackState) (i : Nat) :
    (unpackStep inp s i).pos = s.pos + 4 := rfl

theorem unpackStep_mem (inp : Buffer) (s : UnpackState) (i j : Nat) :
    (unpackStep inp s i).mem j =
      if j = s.pos + 3 then palette ((inp i >>> 0) &&& 3)
      else if j = s.pos + 2 then palette ((inp i >>> 2) &&& 3)
      else if j = s.pos + 1 then palette ((inp i >>> 4) &&& 3)
      else if j = s.pos then palette ((inp i >>> 6) &&& 3)
      else s.mem j := by
  simp only [unpackStep, UnpackState.push, store, Nat.add_assoc]

/-- After `n` iterations of the unpack loop, `buf` has moved by `4 * n`, byte `i`
of the input has become the pixels at `4 * i .. 4 * i + 3`, and the cells from
`4 * n` on are untouched. -/
theorem unpack_loop (inp heap : Buffer) (n : Nat) :
    ((List.range n).foldl (unpackStep inp) ⟨heap, 0⟩).pos = 4 * n ∧
    (∀ i k, i < n → k < 4 →
      ((List.range n).foldl (unpackStep inp) ⟨heap, 0⟩).mem (4 * i + k)
        = unpackedPixel (inp i) k) ∧
    (∀ j, 4 * n ≤ j → ((List.range n).foldl (unpackStep inp) ⟨heap, 0⟩).mem j = heap j) := by
  refine foldl_range_invariant (unpackStep inp)
    (fun m s => s.pos = 4 * m ∧
      (∀ i k, i < m → k < 4 → s.mem (4 * i + k) = unpackedPixel (inp i) k) ∧
      (∀ j, 4 * m ≤ j → s.mem j = heap j)) n ⟨heap, 0⟩ ?_ ?_
  · exact ⟨rfl, fun i k hi => absurd hi (Nat.not_lt_zero _), fun j _ => rfl⟩
  · rintro m s _ ⟨hpos, hdone, hrest⟩
    refine ⟨by rw [unpackStep_pos, hpos]; omega, ?_, ?_⟩
    · intro i k hi hk
      rw [unpackStep_mem, hpos]
      by_cases him : i = m
      · subst him
        have hk4 : k = 0 ∨ k = 1 ∨ k = 2 ∨ k = 3 := by omega
        rcases hk4 with rfl | rfl | rfl | rfl <;> simp [unpackedPixel]
      · have hlt : i < m := by omega
        have h3 : ¬ 4 * i + k = 4 * m + 3 := by omega
        have h2 : ¬ 4 * i + k = 4 * m + 2 := by omega
        have h1 : ¬ 4 * i + k = 4 * m + 1 := by omega
        have h0 : ¬ 4 * i + k = 4 * m := by omega
        rw [if_neg h3, if_neg h2, if_neg h1, if_neg h0]
        exact hdone i k hlt hk
    · intro j hj
      rw [unpackStep_mem, hpos]
      have h3 : ¬ j = 4 * m + 3 := by omega
      have h2 : ¬ j = 4 * m + 2 := by omega
      have h1 : ¬ j = 4 * m + 1 := by omega
      have h0 : ¬ j = 4 * m := by omega
      rw [if_neg h3, if_neg h2, if_neg h1, if_neg h0]
      exact hrest j (by omega)

/-- C2: whatever the input and the dimensions (a pixel count divisible by 4
included), the unpack loop of `expand_gc` turns each input byte `i` it visits
into the four palette entries for the bit pairs at shifts 6, 4, 2, 0, stored at
the unpacked positions `4 * i .. 4 * i + 3`; when `w * h` is divisible by 4 it
stores `w * h` (as a `uint32_t`) pixels in all; and the byte `0b11100100`
unpacks to black, dark gray, light gray, white. -/
theorem unpack_byte_to_pixels (inp heap : Buffer) (w h i : Nat)
    (hi : i < (w * h % 2 ^ 32) / 4) :
    (unpack inp heap w h).mem (4 * i) = gc_palette.getD ((inp i >>> 6) &&& 3) 0 ∧
    (unpack inp heap w h).mem (4 * i + 1) = gc_palette.getD ((inp i >>> 4) &&& 3) 0 ∧
    (unpack inp heap w h).mem (4 * i + 2) = gc_palette.getD ((inp i >>> 2) &&& 3) 0 ∧
    (unpack inp heap w h).mem (4 * i + 3) = gc_palette.getD (inp i &&& 3) 0 ∧
    (4 ∣ w * h → (unpack inp heap w h).pos = w * h % 2 ^ 32) ∧
    (inp i = 0b11100100 →
      (unpack inp heap w h).mem (4 * i) = 0xFF000000 ∧
      (unpack inp heap w h).mem (4 * i + 1) = 0xFF808080 ∧
      (unpack inp heap w h).mem (4 * i + 2) = 0xFFC0C0C0 ∧
      (unpack inp heap w h).mem (4 * i + 3) = 0xFFFFFFFF) := by
  obtain ⟨hpos, hmem, _⟩ := unpack_loop inp heap ((w * h % 2 ^ 32) / 4)
  have e0 := hmem i 0 hi (by decide)
  have e1 := hmem i 1 hi (by decide)
  have e2 := hmem i 2 hi (by decide)
  have e3 := hmem i 3 hi (by decide)
  simp only [unpackedPixel, palette, Nat.add_zero] at e0 e1 e2 e3
  refine ⟨e0, e1, e2, by simpa using e3, ?_, ?_⟩
  · intro hdvd
    have h4 : 4 ∣ w * h % 2 ^ 32 := (Nat.dvd_mod_iff (by decide)).mpr hdvd
    show ((List.range ((w * h % 2 ^ 32) / 4)).foldl (unpackStep inp) ⟨heap, 0⟩).pos = _
    rw [hpos]
    exact Nat.mul_div_cancel' h4
  · intro hb
    unfold unpack
    rw [e0, e1, e2, e3, hb]
    decide

/-- C2 at the 2x2 image packed in the single byte `0b11100100`. -/
theorem unpack_byte_to_pixels_witness :
    0 < (2 * 2 % 2 ^ 32) / 4 ∧
    (unpack (bufOf [0b11100100]) zeroBuf 2 2).mem (4 * 0)
      = gc_palette.getD ((bufOf [0b11100100] 0 >>> 6) &&& 3) 0 ∧
    (unpack (bufOf [0b11100100]) zeroBuf 2 2).mem (4 * 0 + 1)
      = gc_palette.getD ((bufOf [0b11100100] 0 >>> 4) &&& 3) 0 ∧
    (unpack (bufOf [0b11100100]) zeroBuf 2 2).mem (4 * 0 + 2)
      = gc_palette.getD ((bufOf [0b11100100] 0 >>> 2) &&& 3) 0 ∧
    (unpack (bufOf [0b11100100]) zeroBuf 2 2).mem (4 * 0 + 3)
      = gc_palette.getD (bufOf [0b11100100] 0 &&& 3) 0 ∧
    (4 ∣ 2 * 2 → (unpack (bufOf [0b11100100]) zeroBuf 2 2).pos = 2 * 2 % 2 ^ 32) ∧
    (bufOf [0b11100100] 0 = 0b11100100 →
      (unpack (bufOf [0b11100100]) zeroBuf 2 2).mem (4 * 0) = 0xFF000000 ∧
      (unpack (bufOf [0b11100100]) zeroBuf 2 2).mem (4 * 0 + 1) = 0xFF808080 ∧
      (unpack (bufOf [0b11100100]) zeroBuf 2 2).mem (4 * 0 + 2) = 0xFFC0C0C0 ∧
      (unpack (bufOf [0b11100100]) zeroBuf 2 2).mem (4 * 0 + 3) = 0xFFFFFFFF) :=
  ⟨by decide, unpack_byte_to_pixels (bufOf [0b11100100]) zeroBuf 2 2 0 (by decide)⟩


/-! ### `expand_gc`: the geometric loop -/

theorem index_lt_area (w h y c : Nat) (hy : y < h) (hc : c < w) :
    y * w + c < w * h ∧ y + c * h < w * h := by
  have h1 : (y + 1) * w ≤ h * w := Nat.mul_le_mul_right w hy
  have h2 : (c + 1) * h ≤ w * h := Nat.mul_le_mul_right h hc
  rw [Nat.add_mul, Nat.one_mul] at h1 h2
  rw [Nat.mul_comm h w] at h1
  omega

/-- One pass of the inner loop writes row `y` of the output from column `w - 1`
down to column 0 and nothing else. -/
theorem rotateRow_spec (start out : Buffer) (w h y : Nat) (hwh : w * h < 2 ^ 32) (hy : y < h) :
    (∀ c, c < w → rotateRow start w h out y (y * w + c) = start (y + c * h)) ∧
    (∀ j, (j < y * w ∨ y * w + w ≤ j) → rotateRow start w h out y j = out j) := by
  have key := foldl_range_invariant (rotateStep start w h y)
    (fun n o => (∀ c, w - n ≤ c → c < w → o (y * w + c) = start (y + c * h)) ∧
      (∀ j, (j < y * w + (w - n) ∨ y * w + w ≤ j) → o j = out j)) w out
    ⟨fun c h1 h2 => absurd h2 (by omega), fun j _ => rfl⟩ ?_
  · obtain ⟨k1, k2⟩ := key
    exact ⟨fun c hc => k1 c (by omega) hc, fun j hj => k2 j (by omega)⟩
  · rintro n o hn ⟨hdone, hrest⟩
    obtain ⟨b1, b2⟩ := index_lt_area w h y (w - n - 1) hy (by omega)
    have e1 : (y * w + (w - n - 1)) % 2 ^ 32 = y * w + (w - n - 1) :=
      Nat.mod_eq_of_lt (by omega)
    have e2 : (y + (w - n - 1) * h) % 2 ^ 32 = y + (w - n - 1) * h :=
      Nat.mod_eq_of_lt (by omega)
    refine ⟨?_, ?_⟩
    · intro c hc1 hc2
      simp only [rotateStep, e1, e2]
      by_cases hcn : c = w - n - 1
      · subst hcn
        exact store_same _ _ _
      · rw [store_other _ _ _ _ (by omega)]
        exact hdone c (by omega) hc2
    · intro j hj
      simp only [rotateStep, e1, e2]
      rw [store_other _ _ _ _ (by omega)]
      exact hrest j (by omega)

/-- The geometric loop stores at row `y`, column `c` of the output the unpacked
pixel at index `y + c * h`, and leaves the cells from `h * w` on untouched. -/
theorem rotate_spec (start out : Buffer) (w h : Nat) (hwh : w * h < 2 ^ 32) :
    (∀ y c, y < h → c < w → rotate start out w h (y * w + c) = start (y + c * h)) ∧
    (∀ j, h * w ≤ j → rotate start out w h j = out j) := by
  refine foldl_range_invariant (rotateRow start w h)
    (fun m o => (∀ y c, y < m → c < w → o (y * w + c) = start (y + c * h)) ∧
      (∀ j, m * w ≤ j → o j = out j)) h out
    ⟨fun y c hy => absurd hy (Nat.not_lt_zero _), fun j _ => rfl⟩ ?_
  rintro m o hm ⟨hdone, hrest⟩
  obtain ⟨r1, r2⟩ := rotateRow_spec start o w h m hwh hm
  have hsucc : (m + 1) * w = m * w + w := by rw [Nat.add_mul, Nat.one_mul]
  refine ⟨?_, ?_⟩
  · intro y c hy hc
    by_cases hym : y = m
    · subst hym
      exact r1 c hc
    · have hlt : y < m := by omega
      have hb : (y + 1) * w ≤ m * w := Nat.mul_le_mul_right w hlt
      rw [Nat.add_mul, Nat.one_mul] at hb
      rw [r2 _ (Or.inl (by omega))]
      exact hdone y c hlt hc
  · intro j hj
    rw [r2 j (Or.inr (by omega))]
    exact hrest j (by omega)

/-- C3 (amended): for `w * h < 2 ^ 32`, `y < h` and `x < w`, the pixel
`expand_gc` stores at output row `y`, column `w - x - 1` (linear index
`y * w + (w - x - 1)`) is the unpacked pixel at linear index
`y + (w - x - 1) * h`; put by column, the pixel at row `y`, column `x` is the
unpacked pixel at `y + x * h`. -/
theorem expand_gc_pixel (inp out heap : Buffer) (w h y x : Nat) (hwh : w * h < 2 ^ 32)
    (hy : y < h) (hx : x < w) :
    expand_gc inp out heap w h (y * w + (w - x - 1))
      = (unpack inp heap w h).mem (y + (w - x - 1) * h) ∧
    expand_gc inp out heap w h (y * w + x) = (unpack inp heap w h).mem (y + x * h) :=
  ⟨(rotate_spec (unpack inp heap w h).mem out w h hwh).1 y (w - x - 1) hy (by omega),
    (rotate_spec (unpack inp heap w h).mem out w h hwh).1 y x hy hx⟩

/-- C3 (amended) at row 0, loop column 0 of the 2x2 image packed in the byte
`0b11100100`. -/
theorem expand_gc_pixel_witness :
    2 * 2 < 2 ^ 32 ∧ 0 < 2 ∧ 0 < 2 ∧
    expand_gc (bufOf [0b11100100]) zeroBuf zeroBuf 2 2 (0 * 2 + (2 - 0 - 1))
      = (unpack (bufOf [0b11100100]) zeroBuf 2 2).mem (0 + (2 - 0 - 1) * 2) ∧
    expand_gc (bufOf [0b11100100]) zeroBuf zeroBuf 2 2 (0 * 2 + 0)
      = (unpack (bufOf [0b11100100]) zeroBuf 2 2).mem (0 + 0 * 2) :=
  ⟨by decide, by decide, by decide,
    expand_gc_pixel (bufOf [0b11100100]) zeroBuf zeroBuf 2 2 0 0 (by decide) (by decide)
      (by decide)⟩

/-- C3 as stated fails: for the 2x2 image packed in the byte `0b11100100`, the
pixel stored at row 0, column 0 is black, the unpacked pixel at index 0, while
the unpacked pixel at index `0 + (2 - 0 - 1) * 2 = 2` is light gray. -/
theorem expand_gc_column_mismatch :
    (0 : Nat) < 2 ∧
    expand_gc (bufOf [0b11100100]) zeroBuf zeroBuf 2 2 (0 * 2 + 0) = 0xFF000000 ∧
    (unpack (bufOf [0b11100100]) zeroBuf 2 2).mem (0 + (2 - 0 - 1) * 2) = 0xFFC0C0C0 ∧
    expand_gc (bufOf [0b11100100]) zeroBuf zeroBuf 2 2 (0 * 2 + 0)
      ≠ (unpack (bufOf [0b11100100]) zeroBuf 2 2).mem (0 + (2 - 0 - 1) * 2) := by
  decide

/-! ### `crop_upscale_icon` -/

theorem mem_memcpy_stores (p j : Nat) (l : List Nat) :
    j ∈ ((List.range DISCORD_EMOJI_SIZE).map (fun k => p + k)).reverse ++ l ↔
      (p ≤ j ∧ j < p + 128) ∨ j ∈ l := by
  simp only [List.mem_append, List.mem_reverse, List.mem_map, List.mem_range, DISCORD_EMOJI_SIZE]
  constructor
  · rintro (⟨k, hk, rfl⟩ | h)
    · exact Or.inl ⟨by omega, by omega⟩
    · exact Or.inr h
  · rintro (⟨h1, h2⟩ | h)
    · exact Or.inl ⟨j - p, by omega, by omega⟩
    · exact Or.inr h

/-- The inner loop without upscaling: 64 pixels of source row `y` are stored at
`out .. out + 63`. -/
theorem cropPixels_plain (inp : Buffer) (in_bank bank_x bank_y y : Nat) (d : Dest) :
    ((List.range ICON_SIZE).foldl (cropPixel inp 0 in_bank bank_x bank_y y) d).pos
      = d.pos + 64 ∧
    (∀ x, x < 64 →
      ((List.range ICON_SIZE).foldl (cropPixel inp 0 in_bank bank_x bank_y y) d).mem (d.pos + x)
        = inp (cropWhere in_bank bank_x bank_y y x)) ∧
    (∀ j, (j < d.pos ∨ d.pos + 64 ≤ j) →
      ((List.range ICON_SIZE).foldl (cropPixel inp 0 in_bank bank_x bank_y y) d).mem j
        = d.mem j) ∧
    (∀ j, j ∈ ((List.range ICON_SIZE).foldl (cropPixel inp 0 in_bank bank_x bank_y y) d).stores
      ↔ (d.pos ≤ j ∧ j < d.pos + 64) ∨ j ∈ d.stores) := by
  have key := foldl_range_invariant (cropPixel inp 0 in_bank bank_x bank_y y)
    (fun n s => s.pos = d.pos + n ∧
      (∀ x, x < n → s.mem (d.pos + x) = inp (cropWhere in_bank bank_x bank_y y x)) ∧
      (∀ j, (j < d.pos ∨ d.pos + n ≤ j) → s.mem j = d.mem j) ∧
      (∀ j, j ∈ s.stores ↔ (d.pos ≤ j ∧ j < d.pos + n) ∨ j ∈ d.stores)) ICON_SIZE d
    ⟨rfl, fun x hx => absurd hx (Nat.not_lt_zero _), fun j _ => rfl,
      fun j => ⟨fun hj => Or.inr hj, fun hj => hj.elim (fun hh => by omega) id⟩⟩ ?_
  · exact key
  · rintro n s _ ⟨hpos, hdone, hrest, hst⟩
    have hstep : cropPixel inp 0 in_bank bank_x bank_y y s n =
        { mem := store s.mem s.pos (inp (cropWhere in_bank bank_x bank_y y n))
          pos := s.pos + 1
          stores := s.pos :: s.stores } := by
      simp [cropPixel]
    rw [hstep]
    refine ⟨by simp only [hpos]; omega, ?_, ?_, ?_⟩
    · intro x hx
      simp only [hpos]
      by_cases hxn : x = n
      · subst hxn
        exact store_same _ _ _
      · rw [store_other _ _ _ _ (by omega)]
        exact hdone x (by omega)
    · intro j hj
      simp only [hpos]
      rw [store_other _ _ _ _ (by omega)]
      exact hrest j (by omega)
    · intro j
      simp only [List.mem_cons, hst j, hpos]
      constructor
      · rintro (h | h | h)
        · exact Or.inl (by omega)
        · exact Or.inl (by omega)
        · exact Or.inr h
      · rintro (h | h)
        · by_cases hj : j = d.pos + n
          · exact Or.inl hj
          · exact Or.inr (Or.inl (by omega))
        · exact Or.inr (Or.inr h)

/-- The inner loop with upscaling: every pixel of source row `y` is stored twice,
at `out + 2 * x` and `out + 2 * x + 1`. -/
theorem cropPixels_upscale (inp : Buffer) (upscale in_bank bank_x bank_y y : Nat) (d : Dest)
    (hu : upscale ≠ 0) :
    ((List.range ICON_SIZE).foldl (cropPixel inp upscale in_bank bank_x bank_y y) d).pos
      = d.pos + 128 ∧
    (∀ x dx, x < 64 → dx < 2 →
      ((List.range ICON_SIZE).foldl (cropPixel inp upscale in_bank bank_x bank_y y) d).mem
          (d.pos + 2 * x + dx)
        = inp (cropWhere in_bank bank_x bank_y y x)) ∧
    (∀ j, (j < d.pos ∨ d.pos + 128 ≤ j) →
      ((List.range ICON_SIZE).foldl (cropPixel inp upscale in_bank bank_x bank_y y) d).mem j
        = d.mem j) ∧
    (∀ j,
      j ∈ ((List.range ICON_SIZE).foldl (cropPixel inp upscale in_bank bank_x bank_y y) d).stores
      ↔ (d.pos ≤ j ∧ j < d.pos + 128) ∨ j ∈ d.stores) := by
  have key := foldl_range_invariant (cropPixel inp upscale in_bank bank_x bank_y y)
    (fun n s => s.pos = d.pos + 2 * n ∧
      (∀ x dx, x < n → dx < 2 →
        s.mem (d.pos + 2 * x + dx) = inp (cropWhere in_bank bank_x bank_y y x)) ∧
      (∀ j, (j < d.pos ∨ d.pos + 2 * n ≤ j) → s.mem j = d.mem j) ∧
      (∀ j, j ∈ s.stores ↔ (d.pos ≤ j ∧ j < d.pos + 2 * n) ∨ j ∈ d.stores)) ICON_SIZE d
    ⟨rfl, fun x dx hx => absurd hx (Nat.not_lt_zero _), fun j _ => rfl,
      fun j => ⟨fun hj => Or.inr hj, fun hj => hj.elim (fun hh => by omega) id⟩⟩ ?_
  · exact key
  · rintro n s _ ⟨hpos, hdone, hrest, hst⟩
    have hstep : cropPixel inp upscale in_bank bank_x bank_y y s n =
        { mem := store (store s.mem (s.pos + 1) (inp (cropWhere in_bank bank_x bank_y y n)))
            s.pos (inp (cropWhere in_bank bank_x bank_y y n))
          pos := s.pos + 2
          stores := s.pos :: (s.pos + 1) :: s.stores } := by
      simp [cropPixel, hu]
    rw [hstep]
    refine ⟨by simp only [hpos]; omega, ?_, ?_, ?_⟩
    · intro x dx hx hdx
      simp only [hpos]
      by_cases hxn : x = n
      · subst hxn
        by_cases h0 : dx = 0
        · subst h0
          exact store_same _ _ _
        · have h1 : dx = 1 := by omega
          subst h1
          rw [store_other _ _ _ _ (by omega)]
          exact store_same _ _ _
      · rw [store_other _ _ _ _ (by omega), store_other _ _ _ _ (by omega)]
        exact hdone x dx (by omega) hdx
    · intro j hj
      simp only [hpos]
      rw [store_other _ _ _ _ (by omega), store_other _ _ _ _ (by omega)]
      exact hrest j (by omega)
    · intro j
      simp only [List.mem_cons, hst j, hpos]
      constructor
      · rintro (h | h | h | h)
        · exact Or.inl (by omega)
        · exact Or.inl (by omega)
        · exact Or.inl (by omega)
        · exact Or.inr h
      · rintro (h | h)
        · by_cases hj : j = d.pos + 2 * n
          · exact Or.inl hj
          · by_cases hj1 : j = d.pos + 2 * n + 1
            · exact Or.inr (Or.inl hj1)
            · exact Or.inr (Or.inr (Or.inl (by omega)))
        · exact Or.inr (Or.inr (Or.inr h))

/-- One pass of the outer loop with upscaling: source row `y` fills the two
destination rows that start at `out`. -/
theorem cropRow_upscale (inp : Buffer) (upscale in_bank bank_x bank_y y : Nat) (d : Dest)
    (hu : upscale ≠ 0) :
    (cropRow inp upscale in_bank bank_x bank_y d y).pos = d.pos + 256 ∧
    (∀ x dy dx, x < 64 → dy < 2 → dx < 2 →
      (cropRow inp upscale in_bank bank_x bank_y d y).mem (d.pos + 128 * dy + 2 * x + dx)
        = inp (cropWhere in_bank bank_x bank_y y x)) ∧
    (∀ j, (j < d.pos ∨ d.pos + 256 ≤ j) →
      (cropRow inp upscale in_bank bank_x bank_y d y).mem j = d.mem j) ∧
    (∀ j, j ∈ (cropRow inp upscale in_bank bank_x bank_y d y).stores
      ↔ (d.pos ≤ j ∧ j < d.pos + 256) ∨ j ∈ d.stores) := by
  obtain ⟨hpos, hdone, hrest, hst⟩ :=
    cropPixels_upscale inp upscale in_bank bank_x bank_y y d hu
  have hrow : cropRow inp upscale in_bank bank_x bank_y d y =
      memcpyRow ((List.range ICON_SIZE).foldl
        (cropPixel inp upscale in_bank bank_x bank_y y) d) := by
    simp [cropRow, hu]
  rw [hrow]
  generalize (List.range ICON_SIZE).foldl (cropPixel inp upscale in_bank bank_x bank_y y) d
    = d1 at hpos hdone hrest hst
  refine ⟨by simp only [memcpyRow, hpos, DISCORD_EMOJI_SIZE], ?_, ?_, ?_⟩
  · intro x dy dx hx hdy hdx
    simp only [memcpyRow, hpos, DISCORD_EMOJI_SIZE]
    by_cases h0 : dy = 0
    · subst h0
      rw [if_neg (by omega)]
      exact hdone x dx hx hdx
    · have h1 : dy = 1 := by omega
      subst h1
      rw [if_pos (by omega)]
      have e : d.pos + 128 * 1 + 2 * x + dx - 128 = d.pos + 2 * x + dx := by omega
      rw [e]
      exact hdone x dx hx hdx
  · intro j hj
    simp only [memcpyRow, hpos, DISCORD_EMOJI_SIZE]
    rw [if_neg (by omega)]
    exact hrest j (by omega)
  · intro j
    simp only [memcpyRow]
    rw [mem_memcpy_stores, hst j, hpos]
    constructor
    · rintro (h | h | h)
      · exact Or.inl (by omega)
      · exact Or.inl (by omega)
      · exact Or.inr h
    · rintro (h | h)
      · by_cases hj : j < d.pos + 128
        · exact Or.inr (Or.inl (by omega))
        · exact Or.inl (by omega)
      · exact Or.inr (Or.inr h)

/-- The whole of `crop_upscale_icon` with upscaling. -/
theorem crop_upscale_spec (inp out : Buffer) (upscale in_bank bank_x bank_y : Nat)
    (hu : upscale ≠ 0) :
    (crop_upscale_icon inp out upscale in_bank bank_x bank_y).pos = 16384 ∧
    (∀ y x dy dx, y < 64 → x < 64 → dy < 2 → dx < 2 →
      (crop_upscale_icon inp out upscale in_bank bank_x bank_y).mem
          ((2 * y + dy) * 128 + (2 * x + dx))
        = inp (cropWhere in_bank bank_x bank_y y x)) ∧
    (∀ j, 16384 ≤ j →
      (crop_upscale_icon inp out upscale in_bank bank_x bank_y).mem j = out j) ∧
    (∀ j, j ∈ (crop_upscale_icon inp out upscale in_bank bank_x bank_y).stores
      ↔ j < 16384) := by
  have key := foldl_range_invariant (cropRow inp upscale in_bank bank_x bank_y)
    (fun m s => s.pos = 256 * m ∧
      (∀ y x dy dx, y < m → x < 64 → dy < 2 → dx < 2 →
        s.mem ((2 * y + dy) * 128 + (2 * x + dx)) = inp (cropWhere in_bank bank_x bank_y y x)) ∧
      (∀ j, 256 * m ≤ j → s.mem j = out j) ∧
      (∀ j, j ∈ s.stores ↔ j < 256 * m)) ICON_SIZE ⟨out, 0, []⟩
    ⟨rfl, fun y x dy dx hy => absurd hy (Nat.not_lt_zero _), fun j _ => rfl,
      fun j => by simp⟩ ?_
  · exact key
  · rintro m s _ ⟨hpos, hdone, hrest, hst⟩
    obtain ⟨rpos, rdone, rrest, rst⟩ :=
      cropRow_upscale inp upscale in_bank bank_x bank_y m s hu
    refine ⟨by rw [rpos, hpos]; omega, ?_, ?_, ?_⟩
    · intro y x dy dx hy hx hdy hdx
      by_cases hym : y = m
      · subst hym
        have e : (2 * y + dy) * 128 + (2 * x + dx) = s.pos + 128 * dy + 2 * x + dx := by
          rw [hpos]; omega
        rw [e]
        exact rdone x dy dx hx hdy hdx
      · rw [rrest _ (Or.inl (by rw [hpos]; omega))]
        exact hdone y x dy dx (by omega) hx hdy hdx
    · intro j hj
      rw [rrest j (Or.inr (by rw [hpos]; omega))]
      exact hrest j (by omega)
    · intro j
      rw [rst j, hst j, hpos]
      omega

/-- The whole of `crop_upscale_icon` without upscaling. -/
theorem crop_plain_spec (inp out : Buffer) (in_bank bank_x bank_y : Nat) :
    (crop_upscale_icon inp out 0 in_bank bank_x bank_y).pos = 4096 ∧
    (∀ y x, y < 64 → x < 64 →
      (crop_upscale_icon inp out 0 in_bank bank_x bank_y).mem (y * 64 + x)
        = inp (cropWhere in_bank bank_x bank_y y x)) ∧
    (∀ j, 4096 ≤ j → (crop_upscale_icon inp out 0 in_bank bank_x bank_y).mem j = out j) ∧
    (∀ j, j ∈ (crop_upscale_icon inp out 0 in_bank bank_x bank_y).stores ↔ j < 4096) := by
  have key := foldl_range_invariant (cropRow inp 0 in_bank bank_x bank_y)
    (fun m s => s.pos = 64 * m ∧
      (∀ y x, y < m → x < 64 →
        s.mem (y * 64 + x) = inp (cropWhere in_bank bank_x bank_y y x)) ∧
      (∀ j, 64 * m ≤ j → s.mem j = out j) ∧
      (∀ j, j ∈ s.stores ↔ j < 64 * m)) ICON_SIZE ⟨out, 0, []⟩
    ⟨rfl, fun y x hy => absurd hy (Nat.not_lt_zero _), fun j _ => rfl, fun j => by simp⟩ ?_
  · exact key
  · rintro m s _ ⟨hpos, hdone, hrest, hst⟩
    have hrow : cropRow inp 0 in_bank bank_x bank_y s m =
        (List.range ICON_SIZE).foldl (cropPixel inp 0 in_bank bank_x bank_y m) s := by
      simp [cropRow]
    obtain ⟨rpos, rdone, rrest, rst⟩ := cropPixels_plain inp in_bank bank_x bank_y m s
    rw [hrow]
    refine ⟨by rw [rpos, hpos]; omega, ?_, ?_, ?_⟩
    · intro y x hy hx
      by_cases hym : y = m
      · subst hym
        have e : y * 64 + x = s.pos + x := by rw [hpos]; omega
        rw [e]
        exact rdone x hx
      · rw [rrest _ (Or.inl (by rw [hpos]; omega))]
        exact hdone y x (by omega) hx
    · intro j hj
      rw [rrest j (Or.inr (by rw [hpos]; omega))]
      exact hrest j (by omega)
    · intro j
      rw [rst j, hst j, hpos]
      omega

/-! ### `main`: the branches -/

theorem main_no_icon (e : Env) (rom : Rom) (hargc : 2 ≤ e.argc) (hrom : e.rom = some rom)
    (hflag : icon_flag (read_header rom e.hdr0).hdr = 0) :
    main e = { calls := header_calls rom e.hdr0, outcome := .no_icon, image := none } := by
  simp [main, hrom, hflag, Nat.not_lt.mpr hargc]

theorem main_compressed (e : Env) (rom : Rom) (hargc : 2 ≤ e.argc) (hrom : e.rom = some rom)
    (hflag : icon_flag (read_header rom e.hdr0).hdr ≠ 0)
    (hcomp : compressed_flag (read_header rom e.hdr0).hdr ≠ 0) :
    main e = write_png
      (header_calls rom e.hdr0
        ++ (compressed_branch rom (read_header rom e.hdr0).hdr e.heap e.upscale).1)
      (compressed_branch rom (read_header rom e.hdr0).hdr e.heap e.upscale).2
      e.upscale e.png_ok := by
  simp [main, hrom, hflag, hcomp, Nat.not_lt.mpr hargc]

theorem main_bank (e : Env) (rom : Rom) (hargc : 2 ≤ e.argc) (hrom : e.rom = some rom)
    (hflag : icon_flag (read_header rom e.hdr0).hdr ≠ 0)
    (hcomp : compressed_flag (read_header rom e.hdr0).hdr = 0) :
    main e = write_png
      (header_calls rom e.hdr0 ++ (bank_branch rom (read_header rom e.hdr0) e.heap e.upscale).1)
      (bank_branch rom (read_header rom e.hdr0) e.heap e.upscale).2
      e.upscale e.png_ok := by
  simp [main, hrom, hflag, hcomp, Nat.not_lt.mpr hargc]

/-- The image `write_png` hands over has the size the upscale flag selects. -/
theorem write_png_image (calls : List Call) (icon : Buffer) (upscale : Nat) (ok : Bool) :
    (write_png calls icon upscale ok).image
      = some ⟨if upscale ≠ 0 then 128 else 64, if upscale ≠ 0 then 128 else 64, icon⟩ := by
  by_cases hu : upscale = 0 <;> simp [write_png, hu, ICON_SIZE, DISCORD_EMOJI_SIZE]

theorem write_png_outcome (calls : List Call) (icon : Buffer) (upscale : Nat) (ok : Bool) :
    (write_png calls icon upscale ok).outcome = if ok then .done else .png_error := by
  by_cases hu : upscale = 0 <;> simp [write_png, hu]

/-- Every image `main` hands to the PNG writer is the destination of a call of
`crop_upscale_icon` on a zeroed `icon` with the upscale flag of the run, and has
the matching size. -/
theorem main_image (e : Env) (img : Image) (himg : (main e).image = some img) :
    (∃ src in_bank bank_x bank_y,
      img.pixels = (crop_upscale_icon src zeroBuf e.upscale in_bank bank_x bank_y).mem) ∧
    img.width = (if e.upscale ≠ 0 then 128 else 64) ∧
    img.height = (if e.upscale ≠ 0 then 128 else 64) := by
  by_cases hargc : e.argc < 2
  · simp [main, hargc] at himg
  · have hargc2 : 2 ≤ e.argc := Nat.le_of_not_lt hargc
    cases hrom : e.rom with
    | none => simp [main, hargc, hrom] at himg
    | some rom =>
      by_cases hflag : icon_flag (read_header rom e.hdr0).hdr = 0
      · rw [main_no_icon e rom hargc2 hrom hflag] at himg
        simp at himg
      · by_cases hcomp : compressed_flag (read_header rom e.hdr0).hdr = 0
        · rw [main_bank e rom hargc2 hrom hflag hcomp, write_png_image] at himg
          have := Option.some.inj himg
          subst this
          exact ⟨⟨_, _, _, _, rfl⟩, rfl, rfl⟩
        · rw [main_compressed e rom hargc2 hrom hflag hcomp, write_png_image] at himg
          have := Option.some.inj himg
          subst this
          exact ⟨⟨_, _, _, _, rfl⟩, rfl, rfl⟩

/-! ### `crop_upscale_icon`: the properties -/

/-- C4: with the upscale flag set, whatever the source buffer and the source
mode, `crop_upscale_icon` stores to every one of the 128 * 128 destination
pixels, each destination pixel `(2y + dy, 2x + dx)` is the source pixel selected
for `(y, x)`, and an all-white 64x64 source gives an all-white 128x128
destination. -/
theorem crop_upscale_doubles (inp out : Buffer)
    (upscale in_bank bank_x bank_y y x dy dx : Nat) (hu : upscale ≠ 0)
    (hy : y < 64) (hx : x < 64) (hdy : dy < 2) (hdx : dx < 2) :
    (crop_upscale_icon inp out upscale in_bank bank_x bank_y).mem
        ((2 * y + dy) * 128 + (2 * x + dx))
      = inp (cropWhere in_bank bank_x bank_y y x) ∧
    (∀ j, j < 128 * 128 →
      j ∈ (crop_upscale_icon inp out upscale in_bank bank_x bank_y).stores) ∧
    (in_bank = 0 → (∀ i, i < 64 * 64 → inp i = 0xFFFFFFFF) →
      ∀ j, j < 128 * 128 →
        (crop_upscale_icon inp out upscale in_bank bank_x bank_y).mem j = 0xFFFFFFFF) := by
  obtain ⟨_, hpix, _, hst⟩ := crop_upscale_spec inp out upscale in_bank bank_x bank_y hu
  refine ⟨hpix y x dy dx hy hx hdy hdx, fun j hj => (hst j).mpr (by omega), ?_⟩
  intro hbank hwhite j hj
  have e : j = (2 * (j / 256) + j / 128 % 2) * 128 + (2 * (j % 128 / 2) + j % 2) := by omega
  rw [e, hpix (j / 256) (j % 128 / 2) (j / 128 % 2) (j % 2) (by omega) (by omega) (by omega)
    (by omega)]
  apply hwhite
  simp only [cropWhere, ICON_SIZE, hbank]
  simp
  omega

/-- C4 at an all-white standalone source, source pixel (3, 5), destination
pixel (7, 10). -/
theorem crop_upscale_doubles_witness :
    (1 : Nat) ≠ 0 ∧ (3 : Nat) < 64 ∧ (5 : Nat) < 64 ∧ (1 : Nat) < 2 ∧ (0 : Nat) < 2 ∧
    ((crop_upscale_icon (fun _ => 0xFFFFFFFF) zeroBuf 1 0 0 0).mem
        ((2 * 3 + 1) * 128 + (2 * 5 + 0))
      = (fun _ => 0xFFFFFFFF) (cropWhere 0 0 0 3 5) ∧
    (∀ j, j < 128 * 128 →
      j ∈ (crop_upscale_icon (fun _ => 0xFFFFFFFF) zeroBuf 1 0 0 0).stores) ∧
    (0 = 0 → (∀ i, i < 64 * 64 → (fun _ => 0xFFFFFFFF) i = 0xFFFFFFFF) →
      ∀ j, j < 128 * 128 →
        (crop_upscale_icon (fun _ => 0xFFFFFFFF) zeroBuf 1 0 0 0).mem j = 0xFFFFFFFF)) :=
  ⟨by decide, by decide, by decide, by decide, by decide,
    crop_upscale_doubles (fun _ => 0xFFFFFFFF) zeroBuf 1 0 0 0 3 5 1 0 (by decide) (by decide)
      (by decide) (by decide) (by decide)⟩

/-- C6: `crop_upscale_icon` stores to exactly the destination indices below
4096 when `upscale` is 0, leaving every cell from 4096 on as it was, and to
exactly the indices below 16384 when `upscale` is non-zero; the image `main`
hands to the PNG writer is such a destination, 64x64 without the upscale flag
and 128x128 with it. -/
theorem crop_written_indices (inp out : Buffer) (upscale in_bank bank_x bank_y : Nat)
    (e : Env) :
    (upscale = 0 →
      (∀ j, j ∈ (crop_upscale_icon inp out upscale in_bank bank_x bank_y).stores ↔ j < 64 * 64) ∧
      (∀ j, 64 * 64 ≤ j →
        (crop_upscale_icon inp out upscale in_bank bank_x bank_y).mem j = out j)) ∧
    (upscale ≠ 0 →
      ∀ j, j ∈ (crop_upscale_icon inp out upscale in_bank bank_x bank_y).stores
        ↔ j < 128 * 128) ∧
    (∀ img, (main e).image = some img →
      (∃ src in_bank bank_x bank_y,
        img.pixels = (crop_upscale_icon src zeroBuf e.upscale in_bank bank_x bank_y).mem) ∧
      (e.upscale = 0 → img.width = 64 ∧ img.height = 64) ∧
      (e.upscale ≠ 0 → img.width = 128 ∧ img.height = 128)) := by
  refine ⟨?_, ?_, ?_⟩
  · rintro rfl
    obtain ⟨_, _, hrest, hst⟩ := crop_plain_spec inp out in_bank bank_x bank_y
    exact ⟨hst, hrest⟩
  · intro hu
    exact (crop_upscale_spec inp out upscale in_bank bank_x bank_y hu).2.2.2
  · intro img himg
    obtain ⟨hsrc, hw, hh⟩ := main_image e img himg
    refine ⟨hsrc, fun h0 => ?_, fun h1 => ?_⟩
    · rw [hw, hh]; simp [h0]
    · rw [hw, hh]; simp [h1]

/-! ### `main`: the icon flag -/

theorem shiftRight_and_one (n k : Nat) : (n >>> k) &&& 1 = n / 2 ^ k % 2 := by
  rw [Nat.shiftRight_eq_div_pow, Nat.and_one_is_mod]

theorem header_calls_not_decode (rom : Rom) (hdr0 : Buffer) :
    ∀ c ∈ header_calls rom hdr0, c.isDecode = false := by
  intro c hc
  unfold header_calls at hc
  split at hc <;> simp at hc <;> rcases hc with rfl | rfl | rfl <;> rfl

/-- C7: once the ROM is open, the run ends with the no-icon error exactly when
bit 1 of the flags of the header in effect is 0, whatever the other header
fields and the other flag bits; such a run returns 1, makes no decode call and
hands no image to the PNG writer, and every other run does hand one over. -/
theorem no_icon_iff_flag_clear (e : Env) (rom : Rom) (hargc : 2 ≤ e.argc)
    (hrom : e.rom = some rom) :
    ((main e).outcome = .no_icon ↔ hdr_flags (read_header rom e.hdr0).hdr / 2 % 2 = 0) ∧
    ((main e).outcome = .no_icon →
      (main e).image = none ∧ (∀ c ∈ (main e).calls, c.isDecode = false) ∧
      (main e).outcome.exit_status = 1) ∧
    ((main e).outcome ≠ .no_icon → (main e).image ≠ none) := by
  have hbit : icon_flag (read_header rom e.hdr0).hdr
      = hdr_flags (read_header rom e.hdr0).hdr / 2 % 2 := by
    rw [icon_flag, shiftRight_and_one, Nat.pow_one]
  by_cases hflag : icon_flag (read_header rom e.hdr0).hdr = 0
  · have hmain := main_no_icon e rom hargc hrom hflag
    rw [hmain]
    refine ⟨⟨fun _ => by rw [← hbit]; exact hflag, fun _ => rfl⟩, fun _ => ?_, fun h => ?_⟩
    · exact ⟨rfl, header_calls_not_decode rom e.hdr0, rfl⟩
    · exact absurd rfl h
  · have hout : (main e).outcome ≠ .no_icon ∧ (main e).image ≠ none := by
      by_cases hcomp : compressed_flag (read_header rom e.hdr0).hdr = 0
      · rw [main_bank e rom hargc hrom hflag hcomp, write_png_outcome, write_png_image]
        refine ⟨?_, by simp⟩
        cases e.png_ok <;> simp
      · rw [main_compressed e rom hargc hrom hflag hcomp, write_png_outcome, write_png_image]
        refine ⟨?_, by simp⟩
        cases e.png_ok <;> simp
    refine ⟨⟨fun h => absurd h hout.1, fun h => absurd (hbit.trans h) hflag⟩,
      fun h => absurd h hout.1, fun _ => hout.2⟩

/-- C7 at the run on `bankRom`. -/
theorem no_icon_iff_flag_clear_witness :
    2 ≤ bankEnv.argc ∧ bankEnv.rom = some bankRom ∧
    (((main bankEnv).outcome = .no_icon
        ↔ hdr_flags (read_header bankRom bankEnv.hdr0).hdr / 2 % 2 = 0) ∧
    ((main bankEnv).outcome = .no_icon →
      (main bankEnv).image = none ∧ (∀ c ∈ (main bankEnv).calls, c.isDecode = false) ∧
      (main bankEnv).outcome.exit_status = 1) ∧
    ((main bankEnv).outcome ≠ .no_icon → (main bankEnv).image ≠ none)) :=
  ⟨by decide, rfl, no_icon_iff_flag_clear bankEnv bankRom (by decide) rfl⟩


/-! ### `main`: the offsets -/

theorem write_png_calls (calls : List Call) (icon : Buffer) (upscale : Nat) (ok : Bool) :
    (write_png calls icon upscale ok).calls
      = calls ++ [.stbi_write_png (if upscale ≠ 0 then 128 else 64)
          (if upscale ≠ 0 then 128 else 64)] := by
  by_cases hu : upscale = 0 <;> simp [write_png, hu, ICON_SIZE, DISCORD_EMOJI_SIZE]

/-- The header in effect: the one at 0x40000 with `offset` 0x40000 when the size
byte read at 0 is 0x00 or 0xFF, the one at 0 with `offset` 0 otherwise. -/
theorem read_header_spec (rom : Rom) (hdr0 : Buffer) :
    ((hdr_size (fread rom 0 HEADER_LEN hdr0) = 0 ∨ hdr_size (fread rom 0 HEADER_LEN hdr0) = 0xff) →
      (read_header rom hdr0).offset = 0x40000 ∧
      (read_header rom hdr0).hdr = fread rom 0x40000 HEADER_LEN (fread rom 0 HEADER_LEN hdr0)) ∧
    (¬ (hdr_size (fread rom 0 HEADER_LEN hdr0) = 0 ∨
        hdr_size (fread rom 0 HEADER_LEN hdr0) = 0xff) →
      (read_header rom hdr0).offset = 0 ∧
      (read_header rom hdr0).hdr = fread rom 0 HEADER_LEN hdr0) := by
  constructor
  · intro h
    have hb : bad_dump (fread rom 0 HEADER_LEN hdr0) = true := by
      simpa [bad_dump] using h
    simp [read_header, hb]
  · intro h
    have hb : bad_dump (fread rom 0 HEADER_LEN hdr0) = false := by
      simpa [bad_dump] using h
    simp [read_header, hb]

/-- C8 fails in compressed mode: on the bad dump `badDumpRom` (byte 0 is 0x00)
the header is taken from 0x40000 and `offset` is 0x40000 after the bad-dump
check, the icon data offset relative to the header's region is 0x2010, and the
run seeks to 0x2010, not to 0x40000 + 0x2010. -/
theorem bad_dump_compressed_seek :
    badDumpRom.byte 0 = 0x00 ∧
    (read_header badDumpRom badDumpEnv.hdr0).offset = 0x40000 ∧
    (∀ i, i < 32 →
      (read_header badDumpRom badDumpEnv.hdr0).hdr i = badDumpRom.byte (0x40000 + i) % 256) ∧
    compressed_flag (read_header badDumpRom badDumpEnv.hdr0).hdr = 1 ∧
    compressed_offset (read_header badDumpRom badDumpEnv.hdr0).hdr = 0x2010 ∧
    (main badDumpEnv).calls = [.fread 32, .fseek 0x40000, .fread 32, .fseek 0x2010,
      .fread 4096, .decompress 4096, .expand_gc 64 64, .crop_upscale_icon 0 0 0 0,
      .stbi_write_png 64 64] ∧
    Call.fseek (0x40000 + 0x2010) ∉ (main badDumpEnv).calls := by
  decide

/-! #### Compressed mode -/

theorem hdr_field_lt (hdr : Buffer) :
    hdr_icon_bank hdr < 256 ∧ hdr_icon_x hdr < 256 ∧ hdr_icon_y hdr < 256 ∧
    hdr_entry_bank hdr < 256 :=
  ⟨Nat.mod_lt _ (by decide), Nat.mod_lt _ (by decide), Nat.mod_lt _ (by decide),
    Nat.mod_lt _ (by decide)⟩

/-- The value line 192 assigns to `offset`. -/
theorem compressed_offset_spec (hdr : Buffer) :
    (compressed_offset hdr : Int)
      = (((hdr_icon_bank hdr : Int) - 0x20) * 0x2000
          + ((((hdr_icon_x hdr <<< 8) ||| hdr_icon_y hdr : Nat) : Int) - 0x6000)) % 2 ^ 32 ∧
    ((hdr_icon_x hdr <<< 8) ||| hdr_icon_y hdr) = 256 * hdr_icon_x hdr + hdr_icon_y hdr ∧
    (0x20 ≤ hdr_icon_bank hdr → 0x60 ≤ hdr_icon_x hdr →
      compressed_offset hdr
        = (hdr_icon_bank hdr - 0x20) * 0x2000
          + (((hdr_icon_x hdr <<< 8) ||| hdr_icon_y hdr) - 0x6000)) := by
  obtain ⟨hb, hx, hy, _⟩ := hdr_field_lt hdr
  have hor : (hdr_icon_x hdr <<< 8) ||| hdr_icon_y hdr = 256 * hdr_icon_x hdr + hdr_icon_y hdr := by
    rw [lor_bytes _ _ hy]; omega
  refine ⟨?_, hor, ?_⟩
  · unfold compressed_offset
    rw [Int.toNat_of_nonneg (Int.emod_nonneg _ (by decide))]
    simp [BANK_LEN, BANK_LOAD_ADDR]
  · intro h1 h2
    unfold compressed_offset
    rw [hor]
    simp only [BANK_LEN, BANK_LOAD_ADDR]
    omega

/-- C9: in a run on a header with the icon and compressed flags set, the file
offset sought for the RLE input is `(icon_bank - 0x20) * 0x2000 + ((icon_x << 8
| icon_y) - 0x6000)` reduced modulo 2^32, that value itself when `icon_bank >=
0x20` and `icon_x >= 0x60`; 4096 bytes are read there (the bytes of the file at
that offset, zero past its end) and `decompress` is called on them with length
4096, its output being what is expanded and cropped into the image. -/
theorem compressed_input_offset (e : Env) (rom : Rom) (hargc : 2 ≤ e.argc)
    (hrom : e.rom = some rom) (hflag : icon_flag (read_header rom e.hdr0).hdr ≠ 0)
    (hcomp : compressed_flag (read_header rom e.hdr0).hdr ≠ 0) :
    (main e).calls = header_calls rom e.hdr0 ++
      [.fseek (compressed_offset (read_header rom e.hdr0).hdr), .fread 4096, .decompress 4096,
        .expand_gc 64 64, .crop_upscale_icon e.upscale 0 0 0,
        .stbi_write_png (if e.upscale ≠ 0 then 128 else 64)
          (if e.upscale ≠ 0 then 128 else 64)] ∧
    (compressed_offset (read_header rom e.hdr0).hdr : Int)
      = (((hdr_icon_bank (read_header rom e.hdr0).hdr : Int) - 0x20) * 0x2000
          + ((((hdr_icon_x (read_header rom e.hdr0).hdr <<< 8)
                ||| hdr_icon_y (read_header rom e.hdr0).hdr : Nat) : Int) - 0x6000)) % 2 ^ 32 ∧
    (0x20 ≤ hdr_icon_bank (read_header rom e.hdr0).hdr →
      0x60 ≤ hdr_icon_x (read_header rom e.hdr0).hdr →
      compressed_offset (read_header rom e.hdr0).hdr
        = (hdr_icon_bank (read_header rom e.hdr0).hdr - 0x20) * 0x2000
          + (((hdr_icon_x (read_header rom e.hdr0).hdr <<< 8)
                ||| hdr_icon_y (read_header rom e.hdr0).hdr) - 0x6000)) ∧
    (∀ i, i < 4096 →
      icon_buf rom (read_header rom e.hdr0).hdr i
        = if compressed_offset (read_header rom e.hdr0).hdr + i < rom.len
          then rom.byte (compressed_offset (read_header rom e.hdr0).hdr + i) % 256 else 0) ∧
    (∃ s, decompress (icon_buf rom (read_header rom e.hdr0).hdr) 4096 = some s ∧
      (∀ i, icon_dec rom (read_header rom e.hdr0).hdr i = s.out.getD i 0) ∧
      (main e).image = some
        ⟨if e.upscale ≠ 0 then 128 else 64, if e.upscale ≠ 0 then 128 else 64,
          (crop_upscale_icon
            (expand_gc (icon_dec rom (read_header rom e.hdr0).hdr) zeroBuf e.heap 64 64)
            zeroBuf e.upscale 0 0 0).mem⟩) := by
  obtain ⟨hoff, _, hexact⟩ := compressed_offset_spec (read_header rom e.hdr0).hdr
  have hmain := main_compressed e rom hargc hrom hflag hcomp
  refine ⟨?_, hoff, hexact, ?_, ?_⟩
  · rw [hmain, write_png_calls]
    simp [compressed_branch, ICON_LEN, ICON_SIZE]
  · intro i hi
    simp only [icon_buf, fread, ICON_LEN, ICON_SIZE, zeroBuf]
    by_cases hlen : compressed_offset (read_header rom e.hdr0).hdr + i < rom.len
    · simp [hi, hlen]
    · simp [hlen]
  · obtain ⟨s, hs⟩ := decompress_returns (icon_buf rom (read_header rom e.hdr0).hdr) 4096
    refine ⟨s, hs, ?_, ?_⟩
    · intro i
      have hs' : decompress (icon_buf rom (read_header rom e.hdr0).hdr) ICON_LEN = some s := hs
      simp only [icon_dec, hs', zeroBuf]
      by_cases hi : i < s.out.length
      · simp [hi]
      · rw [if_neg hi, List.getD_eq_default _ _ (Nat.le_of_not_lt hi)]
    · rw [hmain, write_png_image]
      rfl

/-- C9 at the run on `compressedRom`. -/
theorem compressed_input_offset_witness :
    2 ≤ compressedEnv.argc ∧ compressedEnv.rom = some compressedRom ∧
    icon_flag (read_header compressedRom compressedEnv.hdr0).hdr ≠ 0 ∧
    compressed_flag (read_header compressedRom compressedEnv.hdr0).hdr ≠ 0 ∧
    ((main compressedEnv).calls = header_calls compressedRom compressedEnv.hdr0 ++
      [.fseek (compressed_offset (read_header compressedRom compressedEnv.hdr0).hdr),
        .fread 4096, .decompress 4096,
        .expand_gc 64 64, .crop_upscale_icon compressedEnv.upscale 0 0 0,
        .stbi_write_png (if compressedEnv.upscale ≠ 0 then 128 else 64)
          (if compressedEnv.upscale ≠ 0 then 128 else 64)] ∧
    (compressed_offset (read_header compressedRom compressedEnv.hdr0).hdr : Int)
      = (((hdr_icon_bank (read_header compressedRom compressedEnv.hdr0).hdr : Int) - 0x20)
            * 0x2000
          + ((((hdr_icon_x (read_header compressedRom compressedEnv.hdr0).hdr <<< 8)
                ||| hdr_icon_y (read_header compressedRom compressedEnv.hdr0).hdr : Nat) : Int)
              - 0x6000)) % 2 ^ 32 ∧
    (0x20 ≤ hdr_icon_bank (read_header compressedRom compressedEnv.hdr0).hdr →
      0x60 ≤ hdr_icon_x (read_header compressedRom compressedEnv.hdr0).hdr →
      compressed_offset (read_header compressedRom compressedEnv.hdr0).hdr
        = (hdr_icon_bank (read_header compressedRom compressedEnv.hdr0).hdr - 0x20) * 0x2000
          + (((hdr_icon_x (read_header compressedRom compressedEnv.hdr0).hdr <<< 8)
                ||| hdr_icon_y (read_header compressedRom compressedEnv.hdr0).hdr) - 0x6000)) ∧
    (∀ i, i < 4096 →
      icon_buf compressedRom (read_header compressedRom compressedEnv.hdr0).hdr i
        = if compressed_offset (read_header compressedRom compressedEnv.hdr0).hdr + i
              < compressedRom.len
          then compressedRom.byte
            (compressed_offset (read_header compressedRom compressedEnv.hdr0).hdr + i) % 256
          else 0) ∧
    (∃ s, decompress (icon_buf compressedRom (read_header compressedRom compressedEnv.hdr0).hdr)
          4096 = some s ∧
      (∀ i, icon_dec compressedRom (read_header compressedRom compressedEnv.hdr0).hdr i
        = s.out.getD i 0) ∧
      (main compressedEnv).image = some
        ⟨if compressedEnv.upscale ≠ 0 then 128 else 64,
          if compressedEnv.upscale ≠ 0 then 128 else 64,
          (crop_upscale_icon
            (expand_gc (icon_dec compressedRom (read_header compressedRom compressedEnv.hdr0).hdr)
              zeroBuf compressedEnv.heap 64 64)
            zeroBuf compressedEnv.upscale 0 0 0).mem⟩)) :=
  ⟨by decide, rfl, by decide, by decide,
    compressed_input_offset compressedEnv compressedRom (by decide) rfl (by decide) (by decide)⟩


/-! #### Bank mode -/

/-- The value of `offset` after line 207. -/
theorem bank_offset_spec (offset : Nat) (hdr : Buffer) (hoff : offset = 0 ∨ offset = 0x40000) :
    (bank_offset offset hdr : Int)
      = ((offset : Int)
          + ((hdr_icon_bank hdr : Int) - ((hdr_entry_bank hdr / 2 : Nat) : Int)) * 16384)
        % 2 ^ 32 ∧
    (hdr_entry_bank hdr / 2 ≤ hdr_icon_bank hdr →
      bank_offset offset hdr
        = offset + (hdr_icon_bank hdr - hdr_entry_bank hdr / 2) * 16384) := by
  obtain ⟨hb, _, _, he⟩ := hdr_field_lt hdr
  refine ⟨?_, ?_⟩
  · unfold bank_offset
    rw [Int.toNat_of_nonneg (Int.emod_nonneg _ (by decide))]
    simp [IMAGE_BANK_LEN, IMAGE_BANK_SIZE]
  · intro h
    unfold bank_offset
    simp only [IMAGE_BANK_LEN, IMAGE_BANK_SIZE]
    rcases hoff with rfl | rfl <;> omega

theorem read_header_offset (rom : Rom) (hdr0 : Buffer) :
    ((read_header rom hdr0).offset = 0 ∨ (read_header rom hdr0).offset = 0x40000) ∧
    ((read_header rom hdr0).offset = 0x40000 ↔
      (hdr_size (fread rom 0 HEADER_LEN hdr0) = 0 ∨
        hdr_size (fread rom 0 HEADER_LEN hdr0) = 0xff)) := by
  obtain ⟨hbad, hgood⟩ := read_header_spec rom hdr0
  by_cases h : hdr_size (fread rom 0 HEADER_LEN hdr0) = 0 ∨
      hdr_size (fread rom 0 HEADER_LEN hdr0) = 0xff
  · exact ⟨Or.inr (hbad h).1, fun _ => h, fun _ => (hbad h).1⟩
  · refine ⟨Or.inl (hgood h).1, fun h' => ?_, fun h' => absurd h' h⟩
    rw [(hgood h).1] at h'
    exact absurd h' (by decide)

/-- C10 (amended): in a run on a header with the icon flag set and the compressed
flag clear, the file offset sought for the image bank is `base + (icon_bank -
entry_bank / 2) * 16384` reduced modulo 2^32, where `base` is 0x40000 when the
size byte read at 0 is 0x00 or 0xFF and 0 otherwise, and it is that value itself
when `icon_bank >= entry_bank / 2`; 16384 bytes are read there and the icon is
cropped from the expanded bank with `bank_x = icon_x` and `bank_y = icon_y`. -/
theorem bank_image_offset (e : Env) (rom : Rom) (hargc : 2 ≤ e.argc)
    (hrom : e.rom = some rom) (hflag : icon_flag (read_header rom e.hdr0).hdr ≠ 0)
    (hcomp : compressed_flag (read_header rom e.hdr0).hdr = 0) :
    ((read_header rom e.hdr0).offset = 0 ∨ (read_header rom e.hdr0).offset = 0x40000) ∧
    ((read_header rom e.hdr0).offset = 0x40000 ↔
      (hdr_size (fread rom 0 HEADER_LEN e.hdr0) = 0 ∨
        hdr_size (fread rom 0 HEADER_LEN e.hdr0) = 0xff)) ∧
    (main e).calls = header_calls rom e.hdr0 ++
      [.fseek (bank_offset (read_header rom e.hdr0).offset (read_header rom e.hdr0).hdr),
        .fread 16384, .expand_gc 256 256,
        .crop_upscale_icon e.upscale 1 (hdr_icon_x (read_header rom e.hdr0).hdr)
          (hdr_icon_y (read_header rom e.hdr0).hdr),
        .stbi_write_png (if e.upscale ≠ 0 then 128 else 64)
          (if e.upscale ≠ 0 then 128 else 64)] ∧
    (bank_offset (read_header rom e.hdr0).offset (read_header rom e.hdr0).hdr : Int)
      = (((read_header rom e.hdr0).offset : Int)
          + ((hdr_icon_bank (read_header rom e.hdr0).hdr : Int)
              - ((hdr_entry_bank (read_header rom e.hdr0).hdr / 2 : Nat) : Int)) * 16384)
        % 2 ^ 32 ∧
    (hdr_entry_bank (read_header rom e.hdr0).hdr / 2 ≤ hdr_icon_bank (read_header rom e.hdr0).hdr →
      bank_offset (read_header rom e.hdr0).offset (read_header rom e.hdr0).hdr
        = (read_header rom e.hdr0).offset
          + (hdr_icon_bank (read_header rom e.hdr0).hdr
              - hdr_entry_bank (read_header rom e.hdr0).hdr / 2) * 16384) ∧
    (main e).image = some
      ⟨if e.upscale ≠ 0 then 128 else 64, if e.upscale ≠ 0 then 128 else 64,
        (crop_upscale_icon
          (expand_gc (bank_buf rom (read_header rom e.hdr0).offset (read_header rom e.hdr0).hdr)
            zeroBuf e.heap 256 256)
          zeroBuf e.upscale 1 (hdr_icon_x (read_header rom e.hdr0).hdr)
          (hdr_icon_y (read_header rom e.hdr0).hdr)).mem⟩ := by
  obtain ⟨hbase, hiff⟩ := read_header_offset rom e.hdr0
  obtain ⟨hoff, hexact⟩ :=
    bank_offset_spec (read_header rom e.hdr0).offset (read_header rom e.hdr0).hdr hbase
  have hmain := main_bank e rom hargc hrom hflag hcomp
  refine ⟨hbase, hiff, ?_, hoff, hexact, ?_⟩
  · rw [hmain, write_png_calls]
    simp [bank_branch, IMAGE_BANK_LEN, IMAGE_BANK_SIZE]
  · rw [hmain, write_png_image]
    rfl

/-- C10 (amended) at the run on `bankRom`. -/
theorem bank_image_offset_witness :
    2 ≤ bankEnv.argc ∧ bankEnv.rom = some bankRom ∧
    icon_flag (read_header bankRom bankEnv.hdr0).hdr ≠ 0 ∧
    compressed_flag (read_header bankRom bankEnv.hdr0).hdr = 0 ∧
    (((read_header bankRom bankEnv.hdr0).offset = 0 ∨
        (read_header bankRom bankEnv.hdr0).offset = 0x40000) ∧
    ((read_header bankRom bankEnv.hdr0).offset = 0x40000 ↔
      (hdr_size (fread bankRom 0 HEADER_LEN bankEnv.hdr0) = 0 ∨
        hdr_size (fread bankRom 0 HEADER_LEN bankEnv.hdr0) = 0xff)) ∧
    (main bankEnv).calls = header_calls bankRom bankEnv.hdr0 ++
      [.fseek (bank_offset (read_header bankRom bankEnv.hdr0).offset
          (read_header bankRom bankEnv.hdr0).hdr),
        .fread 16384, .expand_gc 256 256,
        .crop_upscale_icon bankEnv.upscale 1 (hdr_icon_x (read_header bankRom bankEnv.hdr0).hdr)
          (hdr_icon_y (read_header bankRom bankEnv.hdr0).hdr),
        .stbi_write_png (if bankEnv.upscale ≠ 0 then 128 else 64)
          (if bankEnv.upscale ≠ 0 then 128 else 64)] ∧
    (bank_offset (read_header bankRom bankEnv.hdr0).offset
        (read_header bankRom bankEnv.hdr0).hdr : Int)
      = (((read_header bankRom bankEnv.hdr0).offset : Int)
          + ((hdr_icon_bank (read_header bankRom bankEnv.hdr0).hdr : Int)
              - ((hdr_entry_bank (read_header bankRom bankEnv.hdr0).hdr / 2 : Nat) : Int))
            * 16384)
        % 2 ^ 32 ∧
    (hdr_entry_bank (read_header bankRom bankEnv.hdr0).hdr / 2
        ≤ hdr_icon_bank (read_header bankRom bankEnv.hdr0).hdr →
      bank_offset (read_header bankRom bankEnv.hdr0).offset
          (read_header bankRom bankEnv.hdr0).hdr
        = (read_header bankRom bankEnv.hdr0).offset
          + (hdr_icon_bank (read_header bankRom bankEnv.hdr0).hdr
              - hdr_entry_bank (read_header bankRom bankEnv.hdr0).hdr / 2) * 16384) ∧
    (main bankEnv).image = some
      ⟨if bankEnv.upscale ≠ 0 then 128 else 64, if bankEnv.upscale ≠ 0 then 128 else 64,
        (crop_upscale_icon
          (expand_gc (bank_buf bankRom (read_header bankRom bankEnv.hdr0).offset
              (read_header bankRom bankEnv.hdr0).hdr)
            zeroBuf bankEnv.heap 256 256)
          zeroBuf bankEnv.upscale 1 (hdr_icon_x (read_header bankRom bankEnv.hdr0).hdr)
          (hdr_icon_y (read_header bankRom bankEnv.hdr0).hdr)).mem⟩) :=
  ⟨by decide, rfl, by decide, by decide,
    bank_image_offset bankEnv bankRom (by decide) rfl (by decide) (by decide)⟩

/-- C10 as stated fails: on `bankRom` (size byte 0x20, so base 0; entry bank 0,
icon bank 1, compressed flag clear) the run seeks to 16384, while
`base + (icon_bank - entry_bank / 2) * 8192` is 8192. -/
theorem bank_offset_not_8192 :
    compressed_flag (read_header bankRom bankEnv.hdr0).hdr = 0 ∧
    (read_header bankRom bankEnv.hdr0).offset = 0 ∧
    hdr_icon_bank (read_header bankRom bankEnv.hdr0).hdr = 1 ∧
    hdr_entry_bank (read_header bankRom bankEnv.hdr0).hdr = 0 ∧
    (main bankEnv).calls = [.fread 32, .fseek 16384, .fread 16384, .expand_gc 256 256,
      .crop_upscale_icon 0 1 0 0, .stbi_write_png 64 64] ∧
    bank_offset (read_header bankRom bankEnv.hdr0).offset (read_header bankRom bankEnv.hdr0).hdr
      ≠ ((read_header bankRom bankEnv.hdr0).offset
          + (hdr_icon_bank (read_header bankRom bankEnv.hdr0).hdr
              - hdr_entry_bank (read_header bankRom bankEnv.hdr0).hdr / 2) * 8192) % 2 ^ 32 := by
  decide


/-! ### `decompress`: cursor, reads and output size -/

/-- Each iteration moves the input cursor forward by 1, 2 or 4. -/
theorem decompressStep_ip (inp : Buffer) (s : DecState) :
    (decompressStep inp s).ip = s.ip + 1 ∨ (decompressStep inp s).ip = s.ip + 2 ∨
      (decompressStep inp s).ip = s.ip + 4 := by
  unfold decompressStep
  split
  · exact Or.inr (Or.inr rfl)
  · split
    · exact Or.inr (Or.inl rfl)
    · exact Or.inl rfl

/-- Each iteration reads input indices between the cursor and the cursor plus
3, and nothing else. -/
theorem decompressStep_reads (inp : Buffer) (s : DecState) (r : Nat)
    (hr : r ∈ (decompressStep inp s).reads) : r ∈ s.reads ∨ (s.ip ≤ r ∧ r ≤ s.ip + 3) := by
  unfold decompressStep at hr
  split at hr
  · simp only [List.mem_cons] at hr
    rcases hr with h | h | h | h | h
    · exact Or.inr (by omega)
    · exact Or.inr (by omega)
    · exact Or.inr (by omega)
    · exact Or.inr (by omega)
    · exact Or.inl h
  · split at hr
    · simp only [List.mem_cons] at hr
      rcases hr with h | h | h | h | h
      · exact Or.inr (by omega)
      · exact Or.inr (by omega)
      · exact Or.inr (by omega)
      · exact Or.inr (by omega)
      · exact Or.inl h
    · simp only [List.mem_cons] at hr
      rcases hr with h | h | h | h
      · exact Or.inr (by omega)
      · exact Or.inr (by omega)
      · exact Or.inr (by omega)
      · exact Or.inl h

/-- Each iteration writes at most 65535 / 4 bytes for each input byte it
consumes. -/
theorem decompressStep_out (inp : Buffer) (s : DecState) :
    4 * (decompressStep inp s).out.length + 65535 * s.ip
      ≤ 4 * s.out.length + 65535 * (decompressStep inp s).ip := by
  unfold decompressStep
  split
  · have h : ((inp (s.ip + 2) <<< 8) ||| inp (s.ip + 1)) % 2 ^ 16 < 2 ^ 16 :=
      Nat.mod_lt _ (by decide)
    simp only [List.length_append, List.length_replicate]
    omega
  · split
    · have h : (inp s.ip &&& 0x3f) % 2 ^ 16 ≤ 0x3f :=
        Nat.le_trans (Nat.mod_le _ _) Nat.and_le_right
      simp only [List.length_append, List.length_replicate]
      omega
    · simp only [List.length_append, List.length_singleton]
      omega

/-- A property every iteration preserves holds when the loop exits, and the
cursor is then at or past `in_len`. -/
theorem decompressLoop_invariant (inp : Buffer) (in_len : Nat) (P : DecState → Prop)
    (hstep : ∀ s, s.ip < in_len → P s → P (decompressStep inp s)) :
    ∀ (fuel : Nat) (s t : DecState), P s → decompressLoop inp in_len fuel s = some t →
      P t ∧ in_len ≤ t.ip := by
  intro fuel
  induction fuel with
  | zero =>
    intro s t hP h
    simp only [decompressLoop] at h
    split at h
    · exact absurd h (by simp)
    · cases h
      exact ⟨hP, by omega⟩
  | succ f ih =>
    intro s t hP h
    simp only [decompressLoop] at h
    split at h
    · rename_i hlt
      exact ih _ t (hstep s hlt hP) h
    · cases h
      exact ⟨hP, by omega⟩

/-- The loop exits after at most `fuel` iterations, at the first state whose
cursor is not below `in_len`. -/
theorem decompressLoop_iterate (inp : Buffer) (in_len : Nat) :
    ∀ (fuel : Nat) (s t : DecState), decompressLoop inp in_len fuel s = some t →
      ∃ n, n ≤ fuel ∧ t = (decompressStep inp)^[n] s ∧ in_len ≤ t.ip ∧
        ∀ m, m < n → ((decompressStep inp)^[m] s).ip < in_len := by
  intro fuel
  induction fuel with
  | zero =>
    intro s t h
    simp only [decompressLoop] at h
    split at h
    · exact absurd h (by simp)
    · cases h
      exact ⟨0, Nat.le_refl _, rfl, by omega, fun m hm => absurd hm (Nat.not_lt_zero _)⟩
  | succ f ih =>
    intro s t h
    simp only [decompressLoop] at h
    split at h
    · rename_i hlt
      obtain ⟨n, hn, ht, hip, hbelow⟩ := ih _ t h
      refine ⟨n + 1, by omega, by rw [Function.iterate_succ_apply]; exact ht, hip, ?_⟩
      intro m hm
      cases m with
      | zero => exact hlt
      | succ k =>
        rw [Function.iterate_succ_apply]
        exact hbelow k (by omega)
    · cases h
      exact ⟨0, Nat.zero_le _, rfl, by omega, fun m hm => absurd hm (Nat.not_lt_zero _)⟩

/-- C11 fails on the code: with the single input byte `0xC0` and `in_len = 1`
the loop reads the input indices 0, 2, 1 and 3 and leaves the cursor at 4, and
with the single byte `0xC5` it reads index 1 and leaves the cursor at 2. -/
theorem decompress_reads_past_end :
    (decompress (bufOf [0xC0]) 1).map (fun s => (s.reads, s.ip, s.out))
      = some ([3, 1, 2, 0], 4, []) ∧
    (decompress (bufOf [0xC5]) 1).map (fun s => (s.reads, s.ip, s.out))
      = some ([1, 0, 0, 0], 2, [0, 0, 0, 0, 0]) ∧
    ¬ (∀ r ∈ [3, 1, 2, 0], r < 1) := by
  decide

/-- The bound on the output of `decompress`: four times the number of bytes
written is at most 65535 times the number of input bytes consumed, and at most
`in_len + 3` are consumed. -/
theorem decompress_out_bound (inp : Buffer) (in_len : Nat) :
    ∃ s, decompress inp in_len = some s ∧ 4 * s.out.length ≤ 65535 * s.ip ∧
      s.ip ≤ in_len + 3 := by
  obtain ⟨s, hs⟩ := decompress_returns inp in_len
  have h := decompressLoop_invariant inp in_len
    (fun t => 4 * t.out.length ≤ 65535 * t.ip ∧ t.ip ≤ in_len + 3)
    (fun t hlt hP => by
      have h1 := decompressStep_out inp t
      have h2 := decompressStep_ip inp t
      constructor
      · omega
      · omega)
    in_len decStart s ⟨by simp [decStart], by simp [decStart]⟩ hs
  exact ⟨s, hs, h.1.1, h.1.2⟩

/-- C12 (amended): on every 4096-byte input window, the one the pipeline passes
included, `decompress` returns normally, without a check against an output
capacity and without an overrun condition; the bytes it has written number at
most 65535 * 4099 / 4, and when they number at most 4096 they are the contents
of `icon_dec`. -/
theorem decompress_window_unbounded (inp : Buffer) (rom : Rom) (hdr : Buffer) :
    (∃ s, decompress inp 4096 = some s ∧ 4 * s.out.length ≤ 65535 * 4099) ∧
    (∃ s, decompress (icon_buf rom hdr) ICON_LEN = some s ∧
      4 * s.out.length ≤ 65535 * 4099 ∧
      (s.out.length ≤ 4096 → ∀ i, icon_dec rom hdr i = s.out.getD i 0)) := by
  refine ⟨?_, ?_⟩
  · obtain ⟨s, hs, h1, h2⟩ := decompress_out_bound inp 4096
    exact ⟨s, hs, by omega⟩
  · obtain ⟨s, hs, h1, h2⟩ := decompress_out_bound (icon_buf rom hdr) ICON_LEN
    have h3 : ICON_LEN = 4096 := rfl
    refine ⟨s, hs, by omega, fun _ i => ?_⟩
    simp only [icon_dec, hs, zeroBuf]
    by_cases hi : i < s.out.length
    · simp [hi]
    · rw [if_neg hi, List.getD_eq_default _ _ (Nat.le_of_not_lt hi)]

/-- C12 as stated fails: the 4096-byte window of 1024 sixteen-bit runs of count
65535 makes `decompress` return normally after writing 67107840 bytes. -/
theorem decompress_window_overrun :
    (encodeUnits overrunRuns).length = 4096 ∧
    ∃ s, decompress (bufOf (encodeUnits overrunRuns)) 4096 = some s ∧
      s.out.length = 67107840 ∧ ¬ s.out.length ≤ 4096 := by
  have hwf : ∀ u ∈ overrunRuns, u.wf := by
    intro u hu
    rw [overrunRuns, List.mem_replicate] at hu
    rw [hu.2]
    exact ⟨by decide, by decide⟩
  have hlen : (encodeUnits overrunRuns).length = 4096 := by
    rw [overrunRuns, encodeUnits_replicate_length]; rfl
  have hsum : segLenSum overrunRuns = 67107840 := by
    rw [overrunRuns, segLenSum_replicate]; rfl
  obtain ⟨s, hs, hout, _⟩ := decompress_units overrunRuns hwf
  rw [hlen] at hs
  have hl : s.out.length = 67107840 := by rw [hout, expandUnits_length, hsum]
  exact ⟨hlen, s, hs, hl, by rw [hl]; decide⟩

/-- C15: `decompress` terminates whatever the input and `in_len`: every
iteration moves the cursor forward by 1, 2 or 4, the loop runs `n <= in_len`
iterations, the cursor is below `in_len` before each of them and at or past
`in_len` after the last. -/
theorem decompress_terminates (inp : Buffer) (in_len : Nat) :
    (∀ s, (decompressStep inp s).ip = s.ip + 1 ∨ (decompressStep inp s).ip = s.ip + 2 ∨
      (decompressStep inp s).ip = s.ip + 4) ∧
    ∃ s n, decompress inp in_len = some s ∧ n ≤ in_len ∧
      s = (decompressStep inp)^[n] decStart ∧ in_len ≤ s.ip ∧
      ∀ m, m < n → ((decompressStep inp)^[m] decStart).ip < in_len := by
  refine ⟨decompressStep_ip inp, ?_⟩
  obtain ⟨s, hs⟩ := decompress_returns inp in_len
  obtain ⟨n, hn, ht, hip, hbelow⟩ := decompressLoop_iterate inp in_len in_len decStart s hs
  exact ⟨s, n, hs, hn, ht, hip, hbelow⟩

/-- C19: whatever `in_len` is (`in_len >= 1` included), every input index
`decompress` reads is below `in_len + 3`, and the cursor at loop exit lies
between `in_len` and `in_len + 3`. -/
theorem decompress_overread_bound (inp : Buffer) (in_len : Nat) :
    ∃ s, decompress inp in_len = some s ∧ (∀ r ∈ s.reads, r < in_len + 3) ∧
      in_len ≤ s.ip ∧ s.ip ≤ in_len + 3 := by
  obtain ⟨s, hs⟩ := decompress_returns inp in_len
  have h := decompressLoop_invariant inp in_len
    (fun t => (∀ r ∈ t.reads, r < in_len + 3) ∧ t.ip ≤ in_len + 3)
    (fun t hlt hP => by
      refine ⟨fun r hr => ?_, ?_⟩
      · rcases decompressStep_reads inp t r hr with h | h
        · exact hP.1 r h
        · omega
      · have h2 := decompressStep_ip inp t
        omega)
    in_len decStart s ⟨by simp [decStart], by simp [decStart]⟩ hs
  exact ⟨s, hs, h.1.1, h.2, h.1.2⟩

/-! ### `expand_gc`: the geometric loop as a permutation -/

/-- Row-major indexing of an `n` by `m` grid hits every index below `n * m`
exactly once. -/
theorem grid_index_unique (n m j : Nat) (hj : j < n * m) :
    ∃! p : Nat × Nat, p.1 < n ∧ p.2 < m ∧ p.1 * m + p.2 = j := by
  have hm : 0 < m := by
    rcases Nat.eq_zero_or_pos m with h | h
    · rw [h, Nat.mul_zero] at hj
      exact absurd hj (Nat.not_lt_zero _)
    · exact h
  refine ⟨(j / m, j % m), ⟨(Nat.div_lt_iff_lt_mul hm).mpr hj, Nat.mod_lt _ hm, ?_⟩, ?_⟩
  · show j / m * m + j % m = j
    rw [Nat.mul_comm]
    exact Nat.div_add_mod j m
  · rintro ⟨a, b⟩ ⟨_, hb, hab⟩
    have hab' : b + m * a = j := by
      rw [Nat.mul_comm m a, Nat.add_comm]
      exact hab
    have h := (Nat.div_mod_unique hm).mpr ⟨hab', hb⟩
    exact Prod.ext h.1.symm h.2.symm

theorem rotateStep_eq (start out : Buffer) (w h y x : Nat) :
    rotateStep start w h y out x
      = store out (rotateWriteIdx w y x) (start (rotateReadIdx w h y x)) := rfl

/-- Without wrap-around the indices of line 60 are the plain expressions. -/
theorem rotate_idx_exact (w h y x : Nat) (hwh : w * h < 2 ^ 32) (hy : y < h) (hx : x < w) :
    rotateWriteIdx w y x = y * w + (w - x - 1) ∧
    rotateReadIdx w h y x = y + (w - x - 1) * h := by
  obtain ⟨b1, b2⟩ := index_lt_area w h y (w - x - 1) hy (by omega)
  exact ⟨Nat.mod_eq_of_lt (by omega), Nat.mod_eq_of_lt (by omega)⟩

/-- C13: for every `w` and `h` (`w, h >= 1`, square or not), as `(y, x)` ranges
over `[0,h) x [0,w)` the output index `y * w + (w - x - 1)` takes every value
below `w * h` exactly once, and so does the read index `y + (w - x - 1) * h`;
these are the indices line 60 uses whenever `w * h < 2 ^ 32`, and each cell
written ends up holding the cell of the unpacked block, a buffer the loop never
stores to, at the read index of the same iteration. -/
theorem rotate_indices_bijective (w h : Nat) :
    (∀ j, j < w * h → ∃! p : Nat × Nat, p.1 < h ∧ p.2 < w ∧ p.1 * w + (w - p.2 - 1) = j) ∧
    (∀ j, j < w * h → ∃! p : Nat × Nat, p.1 < h ∧ p.2 < w ∧ p.1 + (w - p.2 - 1) * h = j) ∧
    (∀ y x, y < h → x < w → y * w + (w - x - 1) < w * h ∧ y + (w - x - 1) * h < w * h) ∧
    (∀ start out y x, rotateStep start w h y out x
      = store out (rotateWriteIdx w y x) (start (rotateReadIdx w h y x))) ∧
    (w * h < 2 ^ 32 → ∀ y x, y < h → x < w →
      rotateWriteIdx w y x = y * w + (w - x - 1) ∧
      rotateReadIdx w h y x = y + (w - x - 1) * h) ∧
    (w * h < 2 ^ 32 → ∀ start out y x, y < h → x < w →
      rotate start out w h (rotateWriteIdx w y x) = start (rotateReadIdx w h y x)) := by
  refine ⟨?_, ?_, ?_, fun start out y x => rfl, ?_, ?_⟩
  · intro j hj
    obtain ⟨⟨y, c⟩, ⟨hy, hc, hyc⟩, huniq⟩ := grid_index_unique h w j (by rw [Nat.mul_comm]; exact hj)
    simp only at hy hc hyc
    refine ⟨(y, w - c - 1), ⟨hy, by show w - c - 1 < w; omega, ?_⟩, ?_⟩
    · show y * w + (w - (w - c - 1) - 1) = j
      have : w - (w - c - 1) - 1 = c := by omega
      rw [this]; exact hyc
    · rintro ⟨y', x'⟩ ⟨h1, h2, h3⟩
      simp only at h1 h2 h3
      have := huniq (y', w - x' - 1) ⟨h1, by show w - x' - 1 < w; omega, h3⟩
      have e1 : y' = y := congrArg Prod.fst this
      have e2 : w - x' - 1 = c := congrArg Prod.snd this
      exact Prod.ext e1 (by show x' = w - c - 1; omega)
  · intro j hj
    obtain ⟨⟨c, y⟩, ⟨hc, hy, hcy⟩, huniq⟩ := grid_index_unique w h j hj
    simp only at hy hc hcy
    refine ⟨(y, w - c - 1), ⟨hy, by show w - c - 1 < w; omega, ?_⟩, ?_⟩
    · show y + (w - (w - c - 1) - 1) * h = j
      have : w - (w - c - 1) - 1 = c := by omega
      rw [this, Nat.add_comm]; exact hcy
    · rintro ⟨y', x'⟩ ⟨h1, h2, h3⟩
      simp only at h1 h2 h3
      have := huniq (w - x' - 1, y') ⟨by show w - x' - 1 < w; omega, h1, by
        show (w - x' - 1) * h + y' = j
        rw [Nat.add_comm]; exact h3⟩
      have e1 : w - x' - 1 = c := congrArg Prod.fst this
      have e2 : y' = y := congrArg Prod.snd this
      exact Prod.ext e2 (by show x' = w - c - 1; omega)
  · intro y x hy hx
    exact index_lt_area w h y (w - x - 1) hy (by omega)
  · intro hwh y x hy hx
    exact rotate_idx_exact w h y x hwh hy hx
  · intro hwh start out y x hy hx
    obtain ⟨e1, e2⟩ := rotate_idx_exact w h y x hwh hy hx
    rw [e1, e2]
    exact (rotate_spec start out w h hwh).1 y (w - x - 1) hy (by omega)

/-- Applying the geometric loop twice to a square image gives back the image. -/
theorem rotate_rotate (start out1 out2 : Buffer) (n j : Nat) (hn : n * n < 2 ^ 32)
    (hj : j < n * n) : rotate (rotate start out1 n n) out2 n n j = start j := by
  have hpos : 0 < n := by
    rcases Nat.eq_zero_or_pos n with h | h
    · rw [h] at hj
      exact absurd hj (Nat.not_lt_zero _)
    · exact h
  have hy : j / n < n := (Nat.div_lt_iff_lt_mul hpos).mpr hj
  have hc : j % n < n := Nat.mod_lt _ hpos
  have hj' : j = j / n * n + j % n := by
    rw [Nat.mul_comm]; exact (Nat.div_add_mod j n).symm
  have h1 := (rotate_spec (rotate start out1 n n) out2 n n hn).1 (j / n) (j % n) hy hc
  have h2 := (rotate_spec start out1 n n hn).1 (j % n) (j / n) hc hy
  rw [← hj'] at h1
  rw [h1, Nat.add_comm, h2, Nat.add_comm, ← hj']

/-- C17: for `w * h < 2 ^ 32` the geometric loop of `expand_gc` is the plain
transpose, `out[y * w + c] = unpacked[c * h + y]` for `y < h` and `c < w`, also
as `expand_gc` applies it to the unpacked input; for a square image applying the
loop twice returns every one of the `n * n` pixels to its place. -/
theorem rotate_transpose (start out : Buffer) (w h : Nat) (hwh : w * h < 2 ^ 32) :
    (∀ y c, y < h → c < w → rotate start out w h (y * w + c) = start (c * h + y)) ∧
    (∀ inp heap y c, y < h → c < w →
      expand_gc inp out heap w h (y * w + c) = (unpack inp heap w h).mem (c * h + y)) ∧
    (w = h → ∀ out2 j, j < w * h → rotate (rotate start out w h) out2 w h j = start j) := by
  refine ⟨?_, ?_, ?_⟩
  · intro y c hy hc
    rw [(rotate_spec start out w h hwh).1 y c hy hc, Nat.add_comm]
  · intro inp heap y c hy hc
    rw [expand_gc, (rotate_spec _ out w h hwh).1 y c hy hc, Nat.add_comm]
  · rintro rfl out2 j hj
    exact rotate_rotate start out out2 w j hwh hj

/-- C17 at the 2x2 image whose unpacked pixel at index `i` is `i`. -/
theorem rotate_transpose_witness :
    2 * 2 < 2 ^ 32 ∧
    ((∀ y c, y < 2 → c < 2 → rotate (fun i => i) zeroBuf 2 2 (y * 2 + c) = (fun i => i) (c * 2 + y)) ∧
    (∀ inp heap y c, y < 2 → c < 2 →
      expand_gc inp zeroBuf heap 2 2 (y * 2 + c) = (unpack inp heap 2 2).mem (c * 2 + y)) ∧
    (2 = 2 → ∀ out2 j, j < 2 * 2 →
      rotate (rotate (fun i => i) zeroBuf 2 2) out2 2 2 j = (fun i => i) j)) :=
  ⟨by decide, rotate_transpose (fun i => i) zeroBuf 2 2 (by decide)⟩

/-! ### `expand_gc`: no information is lost -/

theorem palette_injective : ∀ a, a < 4 → ∀ b, b < 4 → palette a = palette b → a = b := by
  decide

theorem shiftRight_and_three (b k : Nat) : (b >>> k) &&& 3 = b / 2 ^ k % 4 := by
  have h := Nat.and_pow_two_sub_one_eq_mod (b >>> k) 2
  rw [Nat.shiftRight_eq_div_pow] at h ⊢
  exact h

/-- A byte is determined by the four pixels it unpacks to. -/
theorem byte_of_unpackedPixels (a b : Nat) (ha : a < 256) (hb : b < 256)
    (h : ∀ k, k < 4 → unpackedPixel a k = unpackedPixel b k) : a = b := by
  have field : ∀ k, k < 4 → a / 2 ^ (6 - 2 * k) % 4 = b / 2 ^ (6 - 2 * k) % 4 := by
    intro k hk
    have e := h k hk
    simp only [unpackedPixel, shiftRight_and_three] at e
    exact palette_injective _ (Nat.mod_lt _ (by decide)) _ (Nat.mod_lt _ (by decide)) e
  have f0 := field 0 (by decide)
  have f1 := field 1 (by decide)
  have f2 := field 2 (by decide)
  have f3 := field 3 (by decide)
  norm_num at f0 f1 f2 f3
  omega

/-- The unpacked pixel at index `m` is the output pixel at the transposed
position. -/
theorem unpacked_of_output (inp out heap : Buffer) (w h m : Nat) (hwh : w * h < 2 ^ 32)
    (hm : m < w * h) :
    m % h * w + m / h < w * h ∧
    (unpack inp heap w h).mem m = expand_gc inp out heap w h (m % h * w + m / h) := by
  have hpos : 0 < h := by
    rcases Nat.eq_zero_or_pos h with h0 | h0
    · rw [h0, Nat.mul_zero] at hm
      exact absurd hm (Nat.not_lt_zero _)
    · exact h0
  have hy : m % h < h := Nat.mod_lt _ hpos
  have hc : m / h < w := (Nat.div_lt_iff_lt_mul hpos).mpr hm
  refine ⟨(index_lt_area w h (m % h) (m / h) hy hc).1, ?_⟩
  rw [expand_gc, (rotate_spec _ out w h hwh).1 (m % h) (m / h) hy hc]
  congr 1
  rw [Nat.mul_comm]
  exact (Nat.mod_add_div m h).symm

/-- C18: for `w * h < 2 ^ 32` divisible by 4, two packed inputs of `(w * h) / 4`
bytes whose `expand_gc` outputs agree on the `w * h` pixels are equal byte for
byte; the four palette entries are pairwise distinct. -/
theorem expand_gc_injective (inp1 inp2 out1 out2 heap1 heap2 : Buffer) (w h : Nat)
    (hwh : w * h < 2 ^ 32) (hdvd : 4 ∣ w * h)
    (hb1 : ∀ i, i < w * h / 4 → inp1 i < 256) (hb2 : ∀ i, i < w * h / 4 → inp2 i < 256)
    (heq : ∀ j, j < w * h → expand_gc inp1 out1 heap1 w h j = expand_gc inp2 out2 heap2 w h j) :
    (∀ i, i < w * h / 4 → inp1 i = inp2 i) ∧
    (∀ a, a < 4 → ∀ b, b < 4 → gc_palette.getD a 0 = gc_palette.getD b 0 → a = b) := by
  refine ⟨?_, palette_injective⟩
  intro i hi
  have hcount : (w * h % 2 ^ 32) / 4 = w * h / 4 := by rw [Nat.mod_eq_of_lt hwh]
  obtain ⟨_, hu1, _⟩ := unpack_loop inp1 heap1 ((w * h % 2 ^ 32) / 4)
  obtain ⟨_, hu2, _⟩ := unpack_loop inp2 heap2 ((w * h % 2 ^ 32) / 4)
  apply byte_of_unpackedPixels _ _ (hb1 i hi) (hb2 i hi)
  intro k hk
  have hm : 4 * i + k < w * h := by
    obtain ⟨q, hq⟩ := hdvd
    rw [hq] at hi ⊢
    omega
  rw [← hu1 i k (by rw [hcount]; exact hi) hk, ← hu2 i k (by rw [hcount]; exact hi) hk]
  obtain ⟨hlt, e1⟩ := unpacked_of_output inp1 out1 heap1 w h (4 * i + k) hwh hm
  obtain ⟨_, e2⟩ := unpacked_of_output inp2 out2 heap2 w h (4 * i + k) hwh hm
  have e1' : (unpack inp1 heap1 w h).mem (4 * i + k) = _ := e1
  have e2' : (unpack inp2 heap2 w h).mem (4 * i + k) = _ := e2
  show (unpack inp1 heap1 w h).mem (4 * i + k) = (unpack inp2 heap2 w h).mem (4 * i + k)
  rw [e1', e2']
  exact heq _ hlt

/-- C18 at two copies of the 2x2 image packed in the byte `0b11100100`. -/
theorem expand_gc_injective_witness :
    2 * 2 < 2 ^ 32 ∧ 4 ∣ 2 * 2 ∧
    (∀ i, i < 2 * 2 / 4 → bufOf [0b11100100] i < 256) ∧
    (∀ j, j < 2 * 2 → expand_gc (bufOf [0b11100100]) zeroBuf zeroBuf 2 2 j
      = expand_gc (bufOf [0b11100100]) zeroBuf zeroBuf 2 2 j) ∧
    ((∀ i, i < 2 * 2 / 4 → bufOf [0b11100100] i = bufOf [0b11100100] i) ∧
    (∀ a, a < 4 → ∀ b, b < 4 → gc_palette.getD a 0 = gc_palette.getD b 0 → a = b)) :=
  ⟨by decide, by decide, by decide, fun _ _ => rfl,
    expand_gc_injective (bufOf [0b11100100]) (bufOf [0b11100100]) zeroBuf zeroBuf zeroBuf zeroBuf
      2 2 (by decide) (by decide) (by decide) (by decide) (fun _ _ => rfl)⟩

/-! ### `main`: exit statuses -/

theorem main_open_error (e : Env) (hargc : 2 ≤ e.argc) (hrom : e.rom = none) :
    main e = { calls := [], outcome := .open_error, image := none } := by
  simp [main, hrom, Nat.not_lt.mpr hargc]

theorem header_calls_no_png (rom : Rom) (hdr0 : Buffer) (w h : Nat) :
    Call.stbi_write_png w h ∉ header_calls rom hdr0 := by
  unfold header_calls
  split <;> simp

/-- C14 (amended): the run returns 1 when the has-icon flag is unset, the same
status as for a ROM that cannot be opened and for a PNG write failure; the
three report pairwise different messages on stderr but the same status, which is
distinct from the 0 of a run that writes the PNG and of the usage message; the
no-icon run is a hard stop: after reading the header it makes no decode call and
no call of the PNG writer, and hands over no image. -/
theorem error_exit_statuses (e : Env) :
    ((main e).outcome.exit_status = 1 ↔
      ((main e).outcome = .open_error ∨ (main e).outcome = .no_icon ∨
        (main e).outcome = .png_error)) ∧
    ((main e).outcome.exit_status = 0 ↔
      ((main e).outcome = .usage ∨ (main e).outcome = .done)) ∧
    (2 ≤ e.argc → e.rom = none →
      (main e).outcome = .open_error ∧ (main e).outcome.exit_status = 1 ∧
      (main e).image = none ∧ (main e).calls = []) ∧
    (∀ rom, 2 ≤ e.argc → e.rom = some rom → icon_flag (read_header rom e.hdr0).hdr = 0 →
      (main e).outcome = .no_icon ∧ (main e).outcome.exit_status = 1 ∧
      (main e).image = none ∧ (main e).calls = header_calls rom e.hdr0 ∧
      (∀ c ∈ (main e).calls, c.isDecode = false) ∧
      (∀ w h, Call.stbi_write_png w h ∉ (main e).calls)) ∧
    (∀ rom, 2 ≤ e.argc → e.rom = some rom → icon_flag (read_header rom e.hdr0).hdr ≠ 0 →
      e.png_ok = false →
      (main e).outcome = .png_error ∧ (main e).outcome.exit_status = 1) ∧
    (Outcome.no_icon.message ≠ Outcome.open_error.message ∧
      Outcome.no_icon.message ≠ Outcome.png_error.message ∧
      Outcome.open_error.message ≠ Outcome.png_error.message ∧
      Outcome.no_icon.on_stderr = true ∧ Outcome.open_error.on_stderr = true ∧
      Outcome.png_error.on_stderr = true) ∧
    (∀ o : Outcome, o.exit_status = 1 → o.on_stderr = true) := by
  refine ⟨?_, ?_, ?_, ?_, ?_, by decide, ?_⟩
  · cases (main e).outcome <;> simp [Outcome.exit_status]
  · cases (main e).outcome <;> simp [Outcome.exit_status]
  · intro hargc hrom
    rw [main_open_error e hargc hrom]
    exact ⟨rfl, rfl, rfl, rfl⟩
  · intro rom hargc hrom hflag
    rw [main_no_icon e rom hargc hrom hflag]
    exact ⟨rfl, rfl, rfl, rfl, header_calls_not_decode rom e.hdr0,
      fun w h => header_calls_no_png rom e.hdr0 w h⟩
  · intro rom hargc hrom hflag hpng
    by_cases hcomp : compressed_flag (read_header rom e.hdr0).hdr = 0
    · rw [main_bank e rom hargc hrom hflag hcomp, write_png_outcome, hpng]
      exact ⟨rfl, rfl⟩
    · rw [main_compressed e rom hargc hrom hflag hcomp, write_png_outcome, hpng]
      exact ⟨rfl, rfl⟩
  · intro o ho
    cases o <;> simp [Outcome.exit_status, Outcome.on_stderr] at ho ⊢

/-- C14 as stated fails: the run on a ROM without the icon flag, the run on a
ROM that cannot be opened and the run whose PNG write fails all return 1. -/
theorem error_exit_statuses_equal :
    (main noIconEnv).outcome = .no_icon ∧ (main openFailEnv).outcome = .open_error ∧
    (main pngFailEnv).outcome = .png_error ∧
    (main noIconEnv).outcome.exit_status = 1 ∧
    (main noIconEnv).outcome.exit_status = (main openFailEnv).outcome.exit_status ∧
    (main noIconEnv).outcome.exit_status = (main pngFailEnv).outcome.exit_status := by
  decide

/-! ### `crop_upscale_icon`: reads in bank mode -/

/-- The destination of `crop_upscale_icon` depends on the source only through
the cells at the indices `where` takes. -/
theorem crop_source_cells (inp1 inp2 out : Buffer) (upscale in_bank bank_x bank_y : Nat)
    (h : ∀ y x, y < 64 → x < 64 →
      inp1 (cropWhere in_bank bank_x bank_y y x) = inp2 (cropWhere in_bank bank_x bank_y y x))
    (j : Nat) :
    (crop_upscale_icon inp1 out upscale in_bank bank_x bank_y).mem j
      = (crop_upscale_icon inp2 out upscale in_bank bank_x bank_y).mem j := by
  by_cases hu : upscale = 0
  · subst hu
    obtain ⟨_, p1, r1, _⟩ := crop_plain_spec inp1 out in_bank bank_x bank_y
    obtain ⟨_, p2, r2, _⟩ := crop_plain_spec inp2 out in_bank bank_x bank_y
    by_cases hj : j < 4096
    · have e : j = j / 64 * 64 + j % 64 := by omega
      rw [e, p1 _ _ (by omega) (by omega), p2 _ _ (by omega) (by omega)]
      exact h _ _ (by omega) (by omega)
    · rw [r1 j (by omega), r2 j (by omega)]
  · obtain ⟨_, p1, r1, _⟩ := crop_upscale_spec inp1 out upscale in_bank bank_x bank_y hu
    obtain ⟨_, p2, r2, _⟩ := crop_upscale_spec inp2 out upscale in_bank bank_x bank_y hu
    by_cases hj : j < 16384
    · have e : j = (2 * (j / 256) + j / 128 % 2) * 128 + (2 * (j % 128 / 2) + j % 2) := by
        omega
      rw [e, p1 _ _ _ _ (by omega) (by omega) (by omega) (by omega),
        p2 _ _ _ _ (by omega) (by omega) (by omega) (by omega)]
      exact h _ _ (by omega) (by omega)
    · rw [r1 j (by omega), r2 j (by omega)]

/-- C16: in bank mode with `bank_x <= 192` and `bank_y <= 192`, for `y, x < 64`
the source index `where` is `(bank_y + y) * 256 + bank_x + x`, it is below
65536, and `bank_x + x < 256`, so it lies in row `bank_y + y` of the 256x256
bank image at column `bank_x + x`; accordingly the destination does not depend
on any source cell outside the bank image. -/
theorem crop_bank_reads_in_bounds (in_bank bank_x bank_y y x : Nat) (hbank : in_bank ≠ 0)
    (hbx : bank_x ≤ 192) (hby : bank_y ≤ 192) (hy : y < 64) (hx : x < 64) :
    cropWhere in_bank bank_x bank_y y x = (bank_y + y) * 256 + bank_x + x ∧
    (bank_y + y) * 256 + bank_x + x < 65536 ∧ bank_x + x < 256 ∧
    cropWhere in_bank bank_x bank_y y x / 256 = bank_y + y ∧
    cropWhere in_bank bank_x bank_y y x % 256 = bank_x + x ∧
    (∀ inp out, (crop_upscale_icon inp out 0 in_bank bank_x bank_y).mem (y * 64 + x)
      = inp ((bank_y + y) * 256 + bank_x + x)) ∧
    (∀ inp1 inp2 out upscale j, (∀ i, i < 65536 → inp1 i = inp2 i) →
      (crop_upscale_icon inp1 out upscale in_bank bank_x bank_y).mem j
        = (crop_upscale_icon inp2 out upscale in_bank bank_x bank_y).mem j) := by
  have hw : ∀ y x, cropWhere in_bank bank_x bank_y y x = (bank_y + y) * 256 + bank_x + x := by
    intro y x
    simp [cropWhere, hbank, IMAGE_BANK_SIZE]
  refine ⟨hw y x, by omega, by omega, by rw [hw]; omega, by rw [hw]; omega, ?_, ?_⟩
  · intro inp out
    rw [(crop_plain_spec inp out in_bank bank_x bank_y).2.1 y x hy hx, hw]
  · intro inp1 inp2 out upscale j hsame
    apply crop_source_cells
    intro y' x' hy' hx'
    rw [hw]
    exact hsame _ (by omega)

/-- C16 at the window with origin (192, 192) and its last pixel (63, 63). -/
theorem crop_bank_reads_in_bounds_witness :
    (1 : Nat) ≠ 0 ∧ (192 : Nat) ≤ 192 ∧ (63 : Nat) < 64 ∧
    (cropWhere 1 192 192 63 63 = (192 + 63) * 256 + 192 + 63 ∧
    (192 + 63) * 256 + 192 + 63 < 65536 ∧ 192 + 63 < 256 ∧
    cropWhere 1 192 192 63 63 / 256 = 192 + 63 ∧
    cropWhere 1 192 192 63 63 % 256 = 192 + 63 ∧
    (∀ inp out, (crop_upscale_icon inp out 0 1 192 192).mem (63 * 64 + 63)
      = inp ((192 + 63) * 256 + 192 + 63)) ∧
    (∀ inp1 inp2 out upscale j, (∀ i, i < 65536 → inp1 i = inp2 i) →
      (crop_upscale_icon inp1 out upscale 1 192 192).mem j
        = (crop_upscale_icon inp2 out upscale 1 192 192).mem j)) :=
  ⟨by decide, by decide, by decide,
    crop_bank_reads_in_bounds 1 192 192 63 63 (by decide) (by decide) (by decide) (by decide)
      (by decide)⟩

end Gcemoji
